import Mathlib

/-!
Verification of the schema-to-collection transformation engine of the
WordPress-REST-API → Bruno-collection converter.

The source (`src/wordpress/wordpress-to-bruno.js`, `src/utils/bruno-helpers.js`,
`src/utils/wordpress-utils.js`) is dynamically-typed JavaScript operating on
JSON values fetched from the WordPress REST API.  We embed it shallowly:

* JSON values are modelled by the inductive type `JV` (WordPress schemas are
  parsed JSON, so `undefined` never occurs *inside* a value; absence of an
  object member is modelled by `Option JV` at the access site, matching the
  JavaScript distinction between a missing member — `undefined` — and a
  member that is present, possibly `null`).  The example synthesizer can
  *return* `undefined` (`property.enum[0]` on an object enum that passes the
  length guard without declaring a `"0"` member); its result type is
  therefore `Option JV`, `none` standing for `undefined`.  An `undefined`
  member assigned into an object still creates the key; in the composed
  body mapping such a key is kept (its value, never inspected by any stated
  property and dropped by `JSON.stringify`, is represented by `null`), and
  inside a nested example object it is dropped, which is observationally
  equal through `JSON.stringify`, the only consumer of nested examples.
* JavaScript member access `x.k` throws a `TypeError` when `x` is `null`
  (or `undefined`); fallible computations therefore live in `Except String`.
* JavaScript numbers are modelled by `Int`: the engine never performs
  arithmetic on schema numbers, it only stores, compares and stringifies
  them, and every numeric literal in the engine is an integer.
* `uid` fields (random `uuid()` values) and the constant `auth`/`vars`/
  `script`/`seq` members of a request are omitted from the model: no claim
  and no branch of the engine reads them.
* `new Date().toISOString()` is impure; the current timestamp is threaded
  through as an explicit `now : String` argument.
-/

/-- A JSON value, the universe over which the converter operates. -/
inductive JV where
  | null
  | bool (b : Bool)
  | num (n : Int)
  | str (s : String)
  | arr (elems : List JV)
  | obj (fields : List (String × JV))

namespace JV

mutual

/-- Structural equality test on JSON values (JavaScript `===` is structural on
the primitives occurring in parsed JSON; for the container cases the engine
only ever compares primitives, see `normalizeEnum`). -/
def beq : JV → JV → Bool
  | .null, .null => true
  | .bool a, .bool b => a == b
  | .num a, .num b => a == b
  | .str a, .str b => a == b
  | .arr xs, .arr ys => beqList xs ys
  | .obj fs, .obj gs => beqFields fs gs
  | _, _ => false

/-- Element-wise equality of JSON arrays. -/
def beqList : List JV → List JV → Bool
  | [], [] => true
  | x :: xs, y :: ys => beq x y && beqList xs ys
  | _, _ => false

/-- Field-wise equality of JSON objects. -/
def beqFields : List (String × JV) → List (String × JV) → Bool
  | [], [] => true
  | (k, v) :: fs, (k', v') :: gs => k == k' && beq v v' && beqFields fs gs
  | _, _ => false

end

instance : BEq JV := ⟨beq⟩

/-- First value bound to key `k` in an object's field list (JS object member
lookup; JS objects cannot contain a key twice, so the first match is *the*
match). -/
def lookupField : List (String × JV) → String → Option JV
  | [], _ => none
  | (k', v) :: rest, k => if k' = k then some v else lookupField rest k

/-- Total member access `x.k`: `none` models JavaScript's `undefined`.
Only objects carry members that the engine reads (the engine never reads
`.length` of a string or array through this path — see `enumFirst`). -/
def jsGet : JV → String → Option JV
  | .obj fs, k => lookupField fs k
  | _, _ => none

/-- Member access `x.k` as executed by JavaScript: throws a `TypeError` when
the receiver is `null` (the model has no first-class `undefined` receiver,
see the header comment). -/
def getField : JV → String → Except String (Option JV)
  | .null, k => .error ("TypeError: cannot read properties of null (reading " ++ k ++ ")")
  | v, k => .ok (jsGet v k)

/-- JavaScript truthiness. -/
def jsTruthy : JV → Bool
  | .null => false
  | .bool b => b
  | .num n => n != 0
  | .str s => s ≠ ""
  | .arr _ => true
  | .obj _ => true

end JV

/-! ### ASCII case mapping

JavaScript's `toUpperCase`/`toLowerCase` agree with per-character ASCII case
mapping on the method names and route strings the engine handles.  Lean's
`String.toUpper` is defined through well-founded recursion and does not
reduce in the kernel, so we map over the character list instead. -/

/-- ASCII uppercase of a string, character by character. -/
def asciiUpper (s : String) : String := ⟨s.data.map Char.toUpper⟩

/-- ASCII lowercase of a string, character by character. -/
def asciiLower (s : String) : String := ⟨s.data.map Char.toLower⟩

/-!  `getParameterLocation` (src/utils/wordpress-utils.js): decides whether a
parameter belongs in the path, the query string, or the request body.
`pathParams.includes(paramName)` is `===`-based membership, i.e. structural
string membership. -/

/-- `getParameterLocation(method, paramName, pathParams)`: path parameters are
always in the path; GET requests use query parameters; every other method
puts the parameter in the request body. -/
def getParameterLocation (method paramName : String) (pathParams : List String) : String :=
  if paramName ∈ pathParams then "path"
  else if asciiUpper method = "GET" then "query"
  else "body"

/-- C4: a parameter named in the path-parameter set is always classified
`path`; otherwise a GET method yields `query` and any other method `body`;
consequently a GET method never yields `body`. -/
theorem getParameterLocation_spec (method paramName : String) (pathParams : List String) :
    (paramName ∈ pathParams → getParameterLocation method paramName pathParams = "path") ∧
    (paramName ∉ pathParams → asciiUpper method = "GET" →
      getParameterLocation method paramName pathParams = "query") ∧
    (paramName ∉ pathParams → asciiUpper method ≠ "GET" →
      getParameterLocation method paramName pathParams = "body") ∧
    (asciiUpper method = "GET" → getParameterLocation method paramName pathParams ≠ "body") := by
  unfold getParameterLocation
  refine ⟨fun h => by simp [h], fun h hg => by simp [h, hg], fun h hg => by simp [h, hg],
    fun hg => ?_⟩
  by_cases hmem : paramName ∈ pathParams <;> simp [hmem, hg]

/-- Witness for C4 at a concrete input: `id` is a path parameter of a DELETE
request, and GET with a non-path parameter yields `query`. -/
theorem getParameterLocation_spec_witness :
    getParameterLocation "DELETE" "id" ["id"] = "path" ∧
    getParameterLocation "get" "per_page" ["id"] = "query" := by
  refine ⟨(getParameterLocation_spec "DELETE" "id" ["id"]).1 (by decide), ?_⟩
  exact (getParameterLocation_spec "get" "per_page" ["id"]).2.1 (by decide) (by decide)

/-! ### Route-pattern scanning

The engine uses three regular expressions over WordPress route patterns, all
built around the literal shape `(?P<` name `>` pattern `)` with `name` a
non-empty run of word characters (`\w`) and `pattern` a non-empty run of
characters other than `)`:

* `route.replace(/\(\?P<(\w+)>[^)]+\)/g, ':$1')` — URL template rewriting;
* `route.matchAll(/\(\?P<(\w+)>[^)]+\)/g)` — `extractPathParameters`;
* `route.replace(/\(\?P<\w+>[^)]+\)/g, '{param}')` — collection detection.

A JavaScript global regex scans left to right and restarts one character
further on failure; since `\w` cannot match `>` and `[^)]` cannot match `)`,
the greedy runs are exactly the maximal runs, so matching is equivalent to
the deterministic scanner below. -/

/-- `\w`: ASCII letters, digits and underscore. -/
def wordChar (c : Char) : Bool := c.isAlpha || c.isDigit || c = '_'

/-- Is `pat` a contiguous substring of `l` (JS `String.prototype.includes`)? -/
def infixOf (pat : List Char) : List Char → Bool
  | [] => pat.isPrefixOf []
  | c :: rest => pat.isPrefixOf (c :: rest) || infixOf pat rest

/-- JS `s.includes(pat)`. -/
def strContains (s pat : String) : Bool := infixOf pat.data s.data

/-- `(l.dropWhile p).length ≤ l.length`. -/
theorem length_dropWhile_le (p : Char → Bool) (l : List Char) :
    (l.dropWhile p).length ≤ l.length := by
  induction l with
  | nil => simp
  | cons c rest ih =>
    rw [List.dropWhile_cons]
    by_cases h : p c = true
    · simp [h]; omega
    · simp [h]

/-- Try to match `(?P<` name `>` pattern `)` at the head of `l`; on success
return the capture-group name and the remainder of the input. -/
def captureAt (l : List Char) : Option (List Char × List Char) :=
  match "(?P<".data.isPrefixOf l, (l.drop 4).takeWhile wordChar,
        (l.drop 4).dropWhile wordChar with
  | true, nc :: name', '>' :: r2 =>
    (match r2.takeWhile (· != ')'), r2.dropWhile (· != ')') with
     | _ :: _, ')' :: r4 => some (nc :: name', r4)
     | _, _ => none)
  | _, _, _ => none

/-- Soundness of the capture-group matcher: a successful match decomposes the
input into the literal frame around a non-empty word-character name and a
non-empty `)`-free pattern. -/
theorem captureAt_eq_some {l name r : List Char} (h : captureAt l = some (name, r)) :
    name ≠ [] ∧ (∀ c ∈ name, wordChar c = true) ∧
    ∃ pat, pat ≠ [] ∧ (∀ c ∈ pat, c ≠ ')') ∧
      l = "(?P<".data ++ (name ++ '>' :: (pat ++ ')' :: r)) := by
  unfold captureAt at h
  split at h
  case _ nc name' r2 hpre hname hdrop =>
    split at h
    case _ pc pat' r4 hpat hdrop2 =>
      cases h
      have hl4 : l = "(?P<".data ++ l.drop 4 := by
        have hpfx := List.isPrefixOf_iff_prefix.mp hpre
        have h4 : "(?P<".data = List.take 4 l := List.prefix_iff_eq_take.mp hpfx
        conv_lhs => rw [← List.take_append_drop 4 l]
        rw [h4]
      have hd4 : l.drop 4 = (nc :: name') ++ '>' :: r2 := by
        conv_lhs => rw [← List.takeWhile_append_dropWhile wordChar (l.drop 4)]
        rw [hname, hdrop]
      have hr2 : r2 = (pc :: pat') ++ ')' :: r := by
        conv_lhs => rw [← List.takeWhile_append_dropWhile (· != ')') r2]
        rw [hpat, hdrop2]
      refine ⟨by simp, ?_, pc :: pat', by simp, ?_, ?_⟩
      · intro c hc
        exact List.mem_takeWhile_imp (hname ▸ hc)
      · intro c hc
        have := List.mem_takeWhile_imp (hpat ▸ hc)
        simpa using this
      · rw [hl4, hd4, hr2]
    case _ => exact absurd h (by simp)
  case _ => exact absurd h (by simp)

theorem captureAt_length {l name r : List Char} (h : captureAt l = some (name, r)) :
    r.length < l.length := by
  obtain ⟨hn, -, pat, hp, -, hl⟩ := captureAt_eq_some h
  subst hl
  simp [List.length_append]
  omega

/-- `takeWhile` of an all-satisfying block followed by a failing character. -/
theorem takeWhile_all_append {p : Char → Bool} {xs : List Char}
    (hxs : ∀ c ∈ xs, p c = true) {y : Char} (hy : p y = false) (ys : List Char) :
    (xs ++ y :: ys).takeWhile p = xs := by
  induction xs with
  | nil => simp [List.takeWhile_cons, hy]
  | cons c rest ih =>
    rw [List.cons_append, List.takeWhile_cons, hxs c (by simp)]
    simp [ih (fun c hc => hxs c (by simp [hc]))]

/-- `dropWhile` of an all-satisfying block followed by a failing character. -/
theorem dropWhile_all_append {p : Char → Bool} {xs : List Char}
    (hxs : ∀ c ∈ xs, p c = true) {y : Char} (hy : p y = false) (ys : List Char) :
    (xs ++ y :: ys).dropWhile p = y :: ys := by
  induction xs with
  | nil => simp [List.dropWhile_cons, hy]
  | cons c rest ih =>
    rw [List.cons_append, List.dropWhile_cons]
    simp [hxs c (by simp), ih (fun c hc => hxs c (by simp [hc]))]

/-- Completeness of the capture-group matcher: on a well-formed capture group
it fires and consumes exactly the group. -/
theorem captureAt_complete {name pat : List Char} (rest : List Char)
    (hn : name ≠ []) (hnw : ∀ c ∈ name, wordChar c = true)
    (hp : pat ≠ []) (hpc : ∀ c ∈ pat, c ≠ ')') :
    captureAt ("(?P<".data ++ (name ++ '>' :: (pat ++ ')' :: rest))) = some (name, rest) := by
  cases name with
  | nil => exact absurd rfl hn
  | cons nc name' =>
  cases pat with
  | nil => exact absurd rfl hp
  | cons pc pat' =>
  have hdrop4 : ("(?P<".data ++ ((nc :: name') ++ '>' :: ((pc :: pat') ++ ')' :: rest))).drop 4 =
      (nc :: name') ++ '>' :: ((pc :: pat') ++ ')' :: rest) :=
    List.drop_left "(?P<".data _
  have hpre : "(?P<".data.isPrefixOf
      ("(?P<".data ++ ((nc :: name') ++ '>' :: ((pc :: pat') ++ ')' :: rest))) :=
    List.isPrefixOf_iff_prefix.mpr (List.prefix_append _ _)
  have htw : ((nc :: name') ++ '>' :: ((pc :: pat') ++ ')' :: rest)).takeWhile wordChar =
      nc :: name' :=
    takeWhile_all_append hnw (by decide) _
  have hdw : ((nc :: name') ++ '>' :: ((pc :: pat') ++ ')' :: rest)).dropWhile wordChar =
      '>' :: ((pc :: pat') ++ ')' :: rest) :=
    dropWhile_all_append hnw (by decide) _
  have htp : ((pc :: pat') ++ ')' :: rest).takeWhile (· != ')') = pc :: pat' :=
    takeWhile_all_append (fun c hc => by simpa using hpc c hc) (by decide) _
  have hdp : ((pc :: pat') ++ ')' :: rest).dropWhile (· != ')') = ')' :: rest :=
    dropWhile_all_append (fun c hc => by simpa using hpc c hc) (by decide) _
  unfold captureAt
  rw [hdrop4, hpre, htw, hdw]
  show (match (pc :: pat' ++ ')' :: rest).takeWhile (· != ')'),
             (pc :: pat' ++ ')' :: rest).dropWhile (· != ')') with
       | _ :: _, ')' :: r4 => some (nc :: name', r4)
       | _, _ => none) = some (nc :: name', rest)
  rw [htp, hdp]
  rfl

/-! A JavaScript global regex replace/matchAll is a left-to-right scan that
restarts one character further on a failed match attempt.  `scanWith` is that
scan, structurally recursive on a fuel bounded below by the input length
(`runScan` supplies `l.length`, which always suffices since every successful
match consumes at least one character). -/

/-- A matcher consumes input: the remainder of a successful match is shorter. -/
def Shrinking (m : List Char → Option (List Char × List Char)) : Prop :=
  ∀ l n r, m l = some (n, r) → r.length < l.length

/-- Fuelled left-to-right global scan: on a match at the current position,
emit `onMatch` of the capture and continue after the match; otherwise emit
`onChar` of the current character and advance one position. -/
def scanWith {β : Type} (m : List Char → Option (List Char × List Char))
    (onMatch : List Char → List β) (onChar : Char → List β) : Nat → List Char → List β
  | 0, _ => []
  | _ + 1, [] => []
  | fuel + 1, c :: rest =>
    match m (c :: rest) with
    | some (name, r) => onMatch name ++ scanWith m onMatch onChar fuel r
    | none => onChar c ++ scanWith m onMatch onChar fuel rest

/-- The scan with fuel `l.length`. -/
def runScan {β : Type} (m : List Char → Option (List Char × List Char))
    (onMatch : List Char → List β) (onChar : Char → List β) (l : List Char) : List β :=
  scanWith m onMatch onChar l.length l

theorem scanWith_fuel {β : Type} {m} (hm : Shrinking m)
    (onMatch : List Char → List β) (onChar : Char → List β) :
    ∀ f₁ f₂ l, l.length ≤ f₁ → l.length ≤ f₂ →
      scanWith m onMatch onChar f₁ l = scanWith m onMatch onChar f₂ l := by
  intro f₁
  induction f₁ with
  | zero =>
    intro f₂ l h1 _
    have : l = [] := List.eq_nil_of_length_eq_zero (Nat.le_zero.mp h1)
    subst this
    cases f₂ <;> rfl
  | succ f ih =>
    intro f₂ l h1 h2
    cases l with
    | nil => cases f₂ <;> rfl
    | cons c rest =>
      cases f₂ with
      | zero => simp at h2
      | succ f₂' =>
        show (match m (c :: rest) with
              | some (name, r) => onMatch name ++ scanWith m onMatch onChar f r
              | none => onChar c ++ scanWith m onMatch onChar f rest) =
             (match m (c :: rest) with
              | some (name, r) => onMatch name ++ scanWith m onMatch onChar f₂' r
              | none => onChar c ++ scanWith m onMatch onChar f₂' rest)
        cases hmm : m (c :: rest) with
        | some nr =>
          obtain ⟨name, r⟩ := nr
          have hr := hm _ _ _ hmm
          simp only [List.length_cons] at h1 h2 hr
          exact congrArg _ (ih f₂' r (by omega) (by omega))
        | none =>
          simp only [List.length_cons] at h1 h2
          exact congrArg _ (ih f₂' rest (by omega) (by omega))

/-- One-step unfolding of `runScan` at a cons cell (for a shrinking matcher). -/
theorem runScan_cons {β : Type} {m} (hm : Shrinking m)
    (onMatch : List Char → List β) (onChar : Char → List β) (c : Char) (rest : List Char) :
    runScan m onMatch onChar (c :: rest) =
      match m (c :: rest) with
      | some (name, r) => onMatch name ++ runScan m onMatch onChar r
      | none => onChar c ++ runScan m onMatch onChar rest := by
  show (match m (c :: rest) with
        | some (name, r) => onMatch name ++ scanWith m onMatch onChar rest.length r
        | none => onChar c ++ scanWith m onMatch onChar rest.length rest) = _
  cases hmm : m (c :: rest) with
  | some nr =>
    obtain ⟨name, r⟩ := nr
    have hr := hm _ _ _ hmm
    simp only [List.length_cons] at hr
    simp [runScan, scanWith_fuel hm onMatch onChar rest.length r.length r (by omega) le_rfl]
  | none => simp [runScan]

theorem captureAt_shrinking : Shrinking captureAt := fun _ _ _ h => captureAt_length h

/-- URL template rewriting over the character list:
`route.replace(/\(\?P<(\w+)>[^)]+\)/g, ':$1')`. -/
def rewriteChars (l : List Char) : List Char :=
  runScan captureAt (fun name => ':' :: name) (fun c => [c]) l

/-- The Bruno URL template derived from a WordPress route pattern. -/
def brunoUrlOfRoute (route : String) : String := ⟨rewriteChars route.data⟩

/-- `extractPathParameters` (src/utils/wordpress-utils.js): the capture-group
names of a route, in order, via `matchAll` of the same regex. -/
def extractPathChars (l : List Char) : List String :=
  runScan captureAt (fun name => [(⟨name⟩ : String)]) (fun _ => []) l

/-- `extractPathParameters(route)`. -/
def extractPathParameters (route : String) : List String := extractPathChars route.data

/-- Opening brace character (written via its code point to keep braces out of
character literals). -/
def lbrace : Char := '\x7b'

/-- Closing brace character. -/
def rbrace : Char := '\x7d'

/-- The `\x7bparam\x7d` placeholder both normalizations compare against. -/
def paramToken : List Char := lbrace :: ("param".data ++ [rbrace])

/-- `route.replace(/\(\?P<\w+>[^)]+\)/g, '\x7bparam\x7d')` — the left side of
the comparison in `isCollectionEndpoint`. -/
def collNormChars (l : List Char) : List Char :=
  runScan captureAt (fun _ => paramToken) (fun c => [c]) l

/-- Try to match `\x7b` word-run `\x7d` at the head of `l`; on success return
an empty capture and the remainder. -/
def braceAt (l : List Char) : Option (List Char × List Char) :=
  match l.take 1, (l.drop 1).takeWhile wordChar, (l.drop 1).dropWhile wordChar with
  | [c], _ :: _, c2 :: r3 =>
    if c = lbrace ∧ c2 = rbrace then some ([], r3) else none
  | _, _, _ => none

theorem braceAt_shrinking : Shrinking braceAt := by
  intro l n r h
  unfold braceAt at h
  split at h
  next c whead wtail c2 r3 htake hword hdrop =>
    split at h
    · cases h
      have h1 := length_dropWhile_le wordChar (l.drop 1)
      rw [hdrop] at h1
      have h2 : l.length ≠ 0 := by
        intro h0
        have : l = [] := List.eq_nil_of_length_eq_zero h0
        subst this
        simp at htake
      simp only [List.length_cons, List.length_drop] at h1 ⊢
      omega
    · exact absurd h (by simp)
  next => exact absurd h (by simp)

/-- `endpoint.replace(/\{[\w_]+\}/g, '\x7bparam\x7d')` — the right side of the
comparison in `isCollectionEndpoint` (`[\w_]` equals `\w`). -/
def braceNormChars (l : List Char) : List Char :=
  runScan braceAt (fun _ => paramToken) (fun c => [c]) l

/-- The catalog of WordPress core collection endpoints
(src/utils/wordpress-utils.js). -/
def collectionEndpoints : List String := [
  "/wp/v2/posts",
  "/wp/v2/pages",
  "/wp/v2/media",
  "/wp/v2/menu-items",
  "/wp/v2/blocks",
  "/wp/v2/templates",
  "/wp/v2/template-parts",
  "/wp/v2/navigation",
  "/wp/v2/font-families",
  "/wp/v2/categories",
  "/wp/v2/tags",
  "/wp/v2/menus",
  "/wp/v2/wp_pattern_category",
  "/wp/v2/users",
  "/wp/v2/comments",
  "/wp/v2/search",
  "/wp/v2/block-types",
  "/wp/v2/themes",
  "/wp/v2/plugins",
  "/wp/v2/sidebars",
  "/wp/v2/widget-types",
  "/wp/v2/widgets",
  "/wp/v2/block-directory/search",
  "/wp/v2/pattern-directory/patterns",
  "/wp/v2/block-patterns/patterns",
  "/wp/v2/block-patterns/categories",
  "/wp/v2/font-collections",
  "/wp/v2/posts/{parent}/revisions",
  "/wp/v2/posts/{id}/autosaves",
  "/wp/v2/pages/{parent}/revisions",
  "/wp/v2/pages/{id}/autosaves",
  "/wp/v2/menu-items/{id}/autosaves",
  "/wp/v2/blocks/{parent}/revisions",
  "/wp/v2/blocks/{id}/autosaves",
  "/wp/v2/templates/{parent}/revisions",
  "/wp/v2/templates/{id}/autosaves",
  "/wp/v2/template-parts/{parent}/revisions",
  "/wp/v2/template-parts/{id}/autosaves",
  "/wp/v2/global-styles/{parent}/revisions",
  "/wp/v2/global-styles/themes/{stylesheet}/variations",
  "/wp/v2/navigation/{parent}/revisions",
  "/wp/v2/navigation/{id}/autosaves",
  "/wp/v2/font-families/{font_family_id}/font-faces",
  "/wp/v2/users/{user_id}/application-passwords"]

/-- `isCollectionEndpoint(route)`: normalize the route's capture groups and
the catalog entries' brace placeholders to a common wildcard token and test
membership. -/
def isCollectionEndpoint (route : String) : Bool :=
  let simplePath := collNormChars route.data
  collectionEndpoints.any (fun e => braceNormChars e.data == simplePath)

/-- `/\/wp\/v2\/(\w+)/`: first occurrence of `/wp/v2/` followed by at least
one word character; capture the maximal word run. -/
def wpResourceAt : List Char → Option String
  | [] => none
  | c :: rest =>
    if "/wp/v2/".data.isPrefixOf (c :: rest) then
      let w := ((c :: rest).drop 7).takeWhile wordChar
      if w.isEmpty then wpResourceAt rest else some ⟨w⟩
    else wpResourceAt rest

/-- The resource token of a route (`route.match(/\/wp\/v2\/(\w+)/)`). -/
def wpResource (route : String) : Option String := wpResourceAt route.data

/-- One-step unfolding of `rewriteChars` at a cons cell. -/
theorem rewriteChars_cons (c : Char) (rest : List Char) :
    rewriteChars (c :: rest) =
      match captureAt (c :: rest) with
      | some (name, r) => ':' :: name ++ rewriteChars r
      | none => c :: rewriteChars rest :=
  runScan_cons captureAt_shrinking _ _ c rest

/-- A failed literal-prefix test makes the matcher miss. -/
theorem captureAt_none_of_not_prefix {l : List Char}
    (h : ¬ "(?P<".data <+: l) : captureAt l = none := by
  cases hc : captureAt l with
  | none => rfl
  | some nr =>
    obtain ⟨name, r⟩ := nr
    obtain ⟨-, -, pat, -, -, hl⟩ := captureAt_eq_some hc
    exact absurd (hl ▸ List.prefix_append _ _) h

/-- C5 core, character level: a `(?P<name>pat)` group directly after a
group-free prefix is rewritten to `:name`, the prefix is kept verbatim, and
scanning continues after the group. -/
theorem rewriteChars_group :
    ∀ pre name pat rest : List Char,
    infixOf "(?P<".data pre = false →
    name ≠ [] → (∀ c ∈ name, wordChar c = true) →
    pat ≠ [] → (∀ c ∈ pat, c ≠ ')') →
    rewriteChars (pre ++ ("(?P<".data ++ (name ++ '>' :: (pat ++ ')' :: rest)))) =
      pre ++ ':' :: (name ++ rewriteChars rest) := by
  intro pre
  induction pre with
  | nil =>
    intro name pat rest _ hn hnw hp hpc
    simp only [List.nil_append]
    have hc2 : captureAt ('(' :: ("?P<".data ++ (name ++ '>' :: (pat ++ ')' :: rest)))) =
        some (name, rest) := captureAt_complete rest hn hnw hp hpc
    show rewriteChars ('(' :: ("?P<".data ++ (name ++ '>' :: (pat ++ ')' :: rest)))) = _
    rw [rewriteChars_cons, hc2]
    rfl
  | cons c pre' ih =>
    intro name pat rest h1 hn hnw hp hpc
    have h1' : infixOf "(?P<".data pre' = false := by
      unfold infixOf at h1
      exact (Bool.or_eq_false_iff.mp h1).2
    have hpre1 : "(?P<".data.isPrefixOf (c :: pre') = false := by
      unfold infixOf at h1
      exact (Bool.or_eq_false_iff.mp h1).1
    have hnone : captureAt (c :: (pre' ++ ("(?P<".data ++ (name ++ '>' :: (pat ++ ')' :: rest))))) = none := by
      cases hc : captureAt (c :: (pre' ++ ("(?P<".data ++ (name ++ '>' :: (pat ++ ')' :: rest))))) with
      | none => rfl
      | some nr =>
        exfalso
        obtain ⟨n2, r2⟩ := nr
        obtain ⟨-, -, pat2, -, -, hl⟩ := captureAt_eq_some hc
        have hd4 : "(?P<".data = ['(', '?', 'P', '<'] := rfl
        rw [hd4] at hl
        match pre', hl with
        | [], hl => simp at hl
        | [a], hl => simp at hl
        | [a, b], hl => simp at hl
        | a :: b :: d :: pre''', hl =>
          simp only [List.cons_append, List.cons.injEq] at hl
          obtain ⟨hc0, ha, hb, hd, -⟩ := hl
          rw [hd4] at hpre1
          subst hc0; subst ha; subst hb; subst hd
          simp [List.isPrefixOf] at hpre1
    show rewriteChars (c :: (pre' ++ ("(?P<".data ++ (name ++ '>' :: (pat ++ ')' :: rest))))) = _
    rw [rewriteChars_cons, hnone]
    show c :: rewriteChars (pre' ++ ("(?P<".data ++ (name ++ '>' :: (pat ++ ')' :: rest)))) =
        c :: (pre' ++ ':' :: (name ++ rewriteChars rest))
    rw [ih name pat rest h1' hn hnw hp hpc]

/-- Strings are equal when their character lists are. -/
theorem strDataEq {s t : String} (h : s.data = t.data) : s = t := by
  cases s; cases t; cases h; rfl

/-- C5: for a route of the form `pre(?P<name>pat)rest` — `pre` containing no
capture-group opener, `name` a non-empty word-character run, `pat` a
non-empty `)`-free run — the produced URL template replaces the capture
group by `:name`, keeps the surrounding literal text `pre` unchanged in
place, and continues rewriting on `rest`; applied recursively this rewrites
each group in order. -/
theorem brunoUrlOfRoute_capture (pre name pat rest : String)
    (h1 : strContains pre "(?P<" = false) (hn : name ≠ "")
    (hnw : ∀ c ∈ name.data, wordChar c = true)
    (hp : pat ≠ "") (hpc : ∀ c ∈ pat.data, c ≠ ')') :
    brunoUrlOfRoute (pre ++ "(?P<" ++ name ++ ">" ++ pat ++ ")" ++ rest) =
      pre ++ ":" ++ name ++ brunoUrlOfRoute rest := by
  have hnd : name.data ≠ [] := by
    intro hd
    apply hn
    apply strDataEq
    simpa using hd
  have hpd : pat.data ≠ [] := by
    intro hd
    apply hp
    apply strDataEq
    simpa using hd
  have harg : ((pre ++ "(?P<" ++ name ++ ">" ++ pat ++ ")" ++ rest)).data =
      pre.data ++ ("(?P<".data ++ (name.data ++ '>' :: (pat.data ++ ')' :: rest.data))) := by
    show pre.data ++ "(?P<".data ++ name.data ++ ['>'] ++ pat.data ++ [')'] ++ rest.data = _
    simp [List.append_assoc]
  have hmain := rewriteChars_group pre.data name.data pat.data rest.data h1 hnd hnw hpd hpc
  apply strDataEq
  show rewriteChars ((pre ++ "(?P<" ++ name ++ ">" ++ pat ++ ")" ++ rest)).data =
      ((pre.data ++ ":".data) ++ name.data) ++ rewriteChars rest.data
  rw [harg, hmain]
  show pre.data ++ ':' :: (name.data ++ rewriteChars rest.data) =
      ((pre.data ++ [':']) ++ name.data) ++ rewriteChars rest.data
  simp [List.append_assoc]

/-- Witness for C5: the posts-by-id route rewrites to `:id` with surrounding
text preserved. -/
theorem brunoUrlOfRoute_capture_witness :
    brunoUrlOfRoute "/wp/v2/posts/(?P<id>[\\d]+)" = "/wp/v2/posts/:id" := by
  have h := brunoUrlOfRoute_capture "/wp/v2/posts/" "id" "[\\d]+" ""
    (by decide) (by decide) (by decide) (by decide) (by decide)
  rw [show ("/wp/v2/posts/" ++ "(?P<" ++ "id" ++ ">" ++ "[\\d]+" ++ ")" ++ "" : String) =
        "/wp/v2/posts/(?P<id>[\\d]+)" from by decide] at h
  rw [h]
  decide

/-! ### Type and enum normalization (src/utils/wordpress-utils.js) -/

/-- The fixed type-replacement table; unmapped values pass through. -/
def typeReplace (t : String) : String :=
  if t = "date" ∨ t = "date-time" ∨ t = "email" ∨ t = "hostname" ∨ t = "ipv4" ∨
     t = "ipv6" ∨ t = "uri" ∨ t = "url" ∨ t = "mixed" then "string"
  else if t = "bool" then "boolean"
  else t

mutual

/-- `normalizeWordPressType(type)`: applied element-wise to arrays; string
types go through the replacement table; any other value passes through
(the JS table lookup on a non-string key misses, and `|| type` returns the
input). -/
def normalizeWordPressType : JV → JV
  | .arr xs => .arr (normalizeTypeList xs)
  | .str s => .str (typeReplace s)
  | v => v

/-- Element-wise `normalizeWordPressType`. -/
def normalizeTypeList : List JV → List JV
  | [] => []
  | x :: xs => normalizeWordPressType x :: normalizeTypeList xs

end

/-- Deduplication keeping the first occurrence (`[...new Set(values)]`; the JS
Set compares primitives structurally — WordPress enums are lists of
primitives, for which reference identity and structural equality agree). -/
def dedupJV (seen : List JV) : List JV → List JV
  | [] => []
  | x :: xs => if seen.any (fun y => JV.beq y x) then dedupJV seen xs
               else x :: dedupJV (x :: seen) xs

/-- `normalizeEnum(values)`: non-array input is returned unchanged; arrays are
deduplicated preserving first-occurrence order. -/
def normalizeEnum (v : JV) : JV :=
  match v with
  | .arr xs => .arr (dedupJV [] xs)
  | _ => v

/-! ### String conversion (JS `String(v)` and `Array.prototype.join`) -/

mutual

/-- JS `String(v)` for the values the engine stringifies (template literals
and `String(arg.default)`). -/
def jsToString : JV → String
  | .null => "null"
  | .bool b => if b then "true" else "false"
  | .num n => toString n
  | .str s => s
  | .arr xs => jsJoinList "," xs
  | .obj _ => "[object Object]"

/-- `Array.prototype.join(sep)`: `null` and `undefined` elements become the
empty string; other elements are stringified. -/
def jsJoinList (sep : String) : List JV → String
  | [] => ""
  | x :: xs =>
    (match x with | .null => "" | v => jsToString v) ++
    (if xs.isEmpty then "" else sep) ++ jsJoinList sep xs

end

/-- `v.join(', ')` as an expression: a `TypeError` unless `v` is an array. -/
def jsJoin (v : JV) (sep : String) : Except String String :=
  match v with
  | .arr xs => .ok (jsJoinList sep xs)
  | _ => .error "TypeError: join is not a function"

/-! ### Remaining wordpress-utils helpers -/

/-- JS object member assignment `o[k] = v`: overwrite in place if the key
exists, else append. -/
def objSet : List (String × JV) → String → JV → List (String × JV)
  | [], k, v => [(k, v)]
  | (k', v') :: rest, k, v =>
    if k' = k then (k, v) :: rest else (k', v') :: objSet rest k v

/-- The constraint keys `extractValidationConstraints` copies. -/
def supportedConstraints : List String :=
  ["minLength", "maxLength", "minimum", "maximum", "minItems", "maxItems",
   "uniqueItems", "enum", "format", "pattern", "multipleOf"]

/-- Copy the supported constraint members present on `arg`, in table order. -/
def copyConstraints (arg : JV) : List String → Except String (List (String × JV))
  | [] => .ok []
  | c :: cs => do
    let v ← JV.getField arg c
    let rest ← copyConstraints arg cs
    match v with
    | some w => .ok ((c, w) :: rest)
    | none => .ok rest

/-- `extractValidationConstraints(arg)`: collect present constraint members,
then normalize a truthy `enum`. -/
def extractValidationConstraints (arg : JV) : Except String JV := do
  let fs ← copyConstraints arg supportedConstraints
  match JV.lookupField fs "enum" with
  | some e =>
    if JV.jsTruthy e then .ok (.obj (objSet fs "enum" (normalizeEnum e)))
    else .ok (.obj fs)
  | none => .ok (.obj fs)

/-- `isParameterRequired(argDef, isPathParam)`: path parameters are required;
otherwise the declared boolean `required` member, defaulting to `false`. -/
def isParameterRequired (argDef : JV) (isPathParam : Bool) : Except String Bool :=
  if isPathParam then .ok true
  else do
    match ← JV.getField argDef "required" with
    | some (.bool b) => .ok b
    | _ => .ok false

/-! ### lodash `each` iteration order

`each(collection, fn)` iterates object members in insertion order, array and
string elements by index.  lodash passes numeric indexes for arrays and
strings; they are modelled as their decimal strings.  (The engine only ever
compares these keys with non-numeric strings such as `'context'` or
WordPress path-parameter names, for which the number/string distinction is
unobservable; WordPress's route grammar never yields an all-digit
capture-group name.)  For other primitives `each` iterates nothing. -/

/-- Index/element pairs of an array, keys as decimal strings. -/
def indexedPairs (i : Nat) : List JV → List (String × JV)
  | [] => []
  | x :: xs => (toString i, x) :: indexedPairs (i + 1) xs

/-- Index/character pairs of a string. -/
def strPairs (i : Nat) : List Char → List (String × JV)
  | [] => []
  | c :: cs => (toString i, JV.str ⟨[c]⟩) :: strPairs (i + 1) cs

/-- The iteration sequence of lodash `each` over a JSON value. -/
def jsEachPairs : JV → List (String × JV)
  | .obj fs => fs
  | .arr xs => indexedPairs 0 xs
  | .str s => strPairs 0 s.data
  | _ => []

/-! ### Example Value Synthesizer (`generateExampleValue`)

`generateExampleValue(property, name)` recurses into nested `properties`
objects.  To keep the definition kernel-computable it is written with an
explicit fuel that every call decrements; `generateExampleValue` itself
supplies the fuel `sizeJV property`, which `genF_fuel` proves sufficient
(the weights in `sizeJV` are chosen with slack so that the arithmetic in
that proof is uniform — semantics are fuel-independent above the bound).

The JS function reads `property.enum` first, which throws exactly when
`property` is `null`; every later member read is then on a non-`null`
value, so the body below reads members with the total `jsGet`. -/

mutual

/-- Structure size driving the synthesizer's fuel. -/
def sizeJV : JV → Nat
  | .null => 1
  | .bool _ => 1
  | .num _ => 1
  | .str s => s.length + 16
  | .arr xs => 4 + sizeElems xs
  | .obj fs => 4 + sizeFields fs

/-- Size of an object's field list. -/
def sizeFields : List (String × JV) → Nat
  | [] => 0
  | (_, v) :: rest => 4 + sizeJV v + sizeFields rest

/-- Size of an array's element list. -/
def sizeElems : List JV → Nat
  | [] => 0
  | x :: rest => 4 + sizeJV x + sizeElems rest

end

theorem sizeJV_pos (v : JV) : 1 ≤ sizeJV v := by
  cases v <;> simp [sizeJV] <;> omega

theorem lookupField_size {fs : List (String × JV)} {k : String} {v : JV}
    (h : JV.lookupField fs k = some v) : sizeJV v + 4 ≤ sizeFields fs := by
  induction fs with
  | nil => simp [JV.lookupField] at h
  | cons kv rest ih =>
    obtain ⟨k', v'⟩ := kv
    unfold JV.lookupField at h
    by_cases hk : k' = k
    · simp [hk] at h
      subst h
      simp [sizeFields]
      omega
    · simp [hk] at h
      have := ih h
      simp [sizeFields]
      omega

/-- JavaScript whitespace accepted by `ToNumber` on strings. -/
def isJsSpace (c : Char) : Bool :=
  c = ' ' || c = '\t' || c = '\n' || c = '\r'

/-- Accumulate a decimal digit run; `none` when a non-digit appears. -/
def digitsVal (acc : Nat) : List Char → Option Nat
  | [] => some acc
  | c :: cs => if c.isDigit then digitsVal (acc * 10 + (c.toNat - 48)) cs else none

/-- `ToNumber` on a trimmed string, for the integer grammar: the empty
string is `0`, an optionally signed digit run is its value, and anything
else is `NaN` (`none`).  Non-integer numeric literals (fractions,
exponents, hex) are outside the model's integer-number domain (see the
header) and map to `none`. -/
def strToIntAux : List Char → Option Int
  | [] => some 0
  | '+' :: cs =>
    (match cs with
     | [] => none
     | _ => (digitsVal 0 cs).map Int.ofNat)
  | '-' :: cs =>
    (match cs with
     | [] => none
     | _ => (digitsVal 0 cs).map (fun n => -(Int.ofNat n)))
  | cs => (digitsVal 0 cs).map Int.ofNat

/-- JavaScript `ToNumber` of a string (integer grammar), after trimming
whitespace on both ends. -/
def strToNum (s : String) : Option Int :=
  strToIntAux (((s.data.dropWhile isJsSpace).reverse.dropWhile isJsSpace).reverse)

/-- The value of `e.length`: the element count of an array, the character
count of a string, the `length` member of an object (possibly absent), and
`undefined` (`none`) on the primitives. -/
def lengthVal : JV → Option JV
  | .arr xs => some (.num (Int.ofNat xs.length))
  | .str s => some (.num (Int.ofNat s.length))
  | .obj fs => JV.lookupField fs "length"
  | _ => none

/-- The JavaScript comparison `v > 0` on a possibly-`undefined` value:
`ToPrimitive`/`ToNumber` semantics — numbers compare directly, `true` is
`1`, `false`/`null`/`undefined` are not greater than `0`, strings go
through `ToNumber`, arrays stringify to their comma-join first, and plain
objects become `NaN` (`"[object Object]"`), which compares `false`. -/
def jsGtZero : Option JV → Bool
  | none => false
  | some (.num n) => decide (0 < n)
  | some (.bool b) => b
  | some JV.null => false
  | some (.str s) =>
    (match strToNum s with
     | some n => decide (0 < n)
     | none => false)
  | some (.arr xs) =>
    (match strToNum (jsJoinList "," xs) with
     | some n => decide (0 < n)
     | none => false)
  | some (.obj _) => false

/-- `e[0]`: the first element of a non-empty array, the first character of a
non-empty string as a one-character string, the `"0"` member of an object
(possibly absent), and `undefined` on the primitives. -/
def index0 : JV → Option JV
  | .arr (x :: _) => some x
  | .str s =>
    (match s.data with
     | c :: _ => some (.str ⟨[c]⟩)
     | [] => none)
  | .obj fs => JV.lookupField fs "0"
  | _ => none

/-- The guard `property.enum && property.enum.length > 0` followed by
`return property.enum[0]`: the outer `some` means the guard passed and the
(possibly `undefined`) indexed value is returned — in particular an object
enum with a `length` member comparing greater than `0` takes this branch,
returning its `"0"` member or `undefined`. -/
def enumFirst (o : Option JV) : Option (Option JV) :=
  match o with
  | some e =>
    if JV.jsTruthy e && jsGtZero (lengthVal e) then some (index0 e) else none
  | none => none

/-- The fixed contextual string examples for common WordPress field names,
tried in source order. -/
def contextualString (name : String) : Option JV :=
  if name = "status" then some (.str "publish")
  else if name = "title" \/ name = "name" then some (.str "Example Title")
  else if name = "content" then some (.str "Example content")
  else if name = "excerpt" then some (.str "Example excerpt")
  else if name = "slug" then some (.str "example-slug")
  else if name = "password" then some (.str "")
  else if name = "author" then some (.num 1)
  else none

/-- The truthiness-corrected type of a field: `property.type || 'string'`. -/
def typeOf (property : JV) : JV :=
  match JV.jsGet property "type" with
  | some tv => if JV.jsTruthy tv then tv else JV.str "string"
  | none => JV.str "string"

/-- The body of `generateExampleValue(property, name)`, abstracted over the
evaluators used for a nested `properties` member (tied in `genF`).  Reading
`property.enum` throws exactly when `property` is `null`; all later member
reads are then total.  The result is `Option JV`: `none` is an `undefined`
return, possible only through the enum branch. -/
def genBody (property : JV) (name now : String)
    (recFields : List (String × JV) → Except String (List (String × JV)))
    (recArr : List JV → Except String (List (String × JV)))
    (recStr : List Char → Except String (List (String × JV))) :
    Except String (Option JV) :=
  match property with
  | .null => .error "TypeError: cannot read properties of null (reading enum)"
  | _ =>
    match enumFirst (JV.jsGet property "enum") with
    | some v => .ok v
    | none =>
      match JV.jsGet property "default" with
      | some d => .ok (some d)
      | none =>
        match normalizeWordPressType (typeOf property) with
        | .str "integer" => .ok (some (.num 0))
        | .str "number" => .ok (some (.num 0))
        | .str "boolean" => .ok (some (.bool false))
        | .str "array" => .ok (some (.arr []))
        | .str "object" =>
          (match JV.jsGet property "properties" with
           | some (.obj gs) => Except.map (fun fs => some (JV.obj fs)) (recFields gs)
           | some (.arr xs) => Except.map (fun fs => some (JV.obj fs)) (recArr xs)
           | some (.str s) => Except.map (fun fs => some (JV.obj fs)) (recStr s.data)
           | _ => .ok (some (.obj [])))
        | _ =>
          match contextualString name with
          | some v => .ok (some v)
          | none =>
            match JV.jsGet property "format" with
            | some (.str "date-time") => .ok (some (.str now))
            | some (.str "uri") => .ok (some (.str "https://example.com"))
            | _ => .ok (some (.str ""))

/-- `obj[k] = x?`: a defined value is recorded under its key; an `undefined`
one is dropped — observationally equal, since a nested example object is
only ever embedded and `JSON.stringify` omits `undefined` members. -/
def consField (k : String) (x? : Option JV) (xs : List (String × JV)) :
    List (String × JV) :=
  match x? with
  | some x => (k, x) :: xs
  | none => xs

mutual

/-- Fuelled `generateExampleValue(property, name)`; `now` is the value of
`new Date().toISOString()`. -/
def genF : Nat → JV → String → String → Except String (Option JV)
  | 0, _, _, _ => .ok none
  | fuel + 1, property, name, now =>
    genBody property name now (fun gs => genFieldsF fuel gs now)
      (fun xs => genArrF fuel 0 xs now) (fun cs => genStrF fuel 0 cs now)

/-- lodash `each` over an object-valued `properties`: synthesize each nested
property keyed by its name. -/
def genFieldsF : Nat → List (String × JV) → String → Except String (List (String × JV))
  | 0, _, _ => .ok []
  | _ + 1, [], _ => .ok []
  | fuel + 1, (k, v) :: rest, now => do
    let x ← genF fuel v k now
    let xs ← genFieldsF fuel rest now
    .ok (consField k x xs)

/-- lodash `each` over an array-valued `properties`: numeric keys. -/
def genArrF : Nat → Nat → List JV → String → Except String (List (String × JV))
  | 0, _, _, _ => .ok []
  | _ + 1, _, [], _ => .ok []
  | fuel + 1, i, x :: rest, now => do
    let v ← genF fuel x (toString i) now
    let vs ← genArrF fuel (i + 1) rest now
    .ok (consField (toString i) v vs)

/-- lodash `each` over a string-valued `properties`: one-character strings
with numeric keys. -/
def genStrF : Nat → Nat → List Char → String → Except String (List (String × JV))
  | 0, _, _, _ => .ok []
  | _ + 1, _, [], _ => .ok []
  | fuel + 1, i, c :: rest, now => do
    let v ← genF fuel (.str ⟨[c]⟩) (toString i) now
    let vs ← genStrF fuel (i + 1) rest now
    .ok (consField (toString i) v vs)

end

/-- `genBody` only uses its evaluators on the value of the `properties`
member; evaluators agreeing there give equal results. -/
theorem genBody_congr {property : JV} {name now : String}
    {rf rf' : List (String × JV) → Except String (List (String × JV))}
    {ra ra' : List JV → Except String (List (String × JV))}
    {rs rs' : List Char → Except String (List (String × JV))}
    (hf : ∀ gs, JV.jsGet property "properties" = some (.obj gs) → rf gs = rf' gs)
    (ha : ∀ xs, JV.jsGet property "properties" = some (.arr xs) → ra xs = ra' xs)
    (hs : ∀ t, JV.jsGet property "properties" = some (.str t) → rs t.data = rs' t.data) :
    genBody property name now rf ra rs = genBody property name now rf' ra' rs' := by
  unfold genBody
  cases property
  case obj fs =>
    repeat' split
    all_goals try rfl
    · next gs heq => exact congrArg (Except.map (fun fs => some (JV.obj fs))) (hf gs heq)
    · next xs heq => exact congrArg (Except.map (fun fs => some (JV.obj fs))) (ha xs heq)
    · next t heq => exact congrArg (Except.map (fun fs => some (JV.obj fs))) (hs t heq)
  all_goals rfl

theorem jsGet_size {p : JV} {k : String} {v : JV} (h : JV.jsGet p k = some v) :
    sizeJV v + 8 ≤ sizeJV p := by
  cases p with
  | obj fs =>
    simp only [JV.jsGet] at h
    have := lookupField_size h
    simp only [sizeJV]
    omega
  | null => simp [JV.jsGet] at h
  | bool b => simp [JV.jsGet] at h
  | num n => simp [JV.jsGet] at h
  | str t => simp [JV.jsGet] at h
  | arr xs => simp [JV.jsGet] at h

/-- Above the `sizeJV` bound the fuel does not matter. -/
theorem gen_fuel_all : ∀ f₁ : Nat,
    (∀ f₂ p name now, sizeJV p ≤ f₁ → sizeJV p ≤ f₂ →
      genF f₁ p name now = genF f₂ p name now) ∧
    (∀ f₂ l now, sizeFields l ≤ f₁ → sizeFields l ≤ f₂ →
      genFieldsF f₁ l now = genFieldsF f₂ l now) ∧
    (∀ f₂ i xs now, sizeElems xs ≤ f₁ → sizeElems xs ≤ f₂ →
      genArrF f₁ i xs now = genArrF f₂ i xs now) ∧
    (∀ f₂ i cs now, cs.length + 20 ≤ f₁ → cs.length + 20 ≤ f₂ →
      genStrF f₁ i cs now = genStrF f₂ i cs now) := by
  intro f₁
  induction f₁ with
  | zero =>
    refine ⟨fun f₂ p _ _ h1 _ => absurd h1 (by have := sizeJV_pos p; omega), ?_, ?_, ?_⟩
    · intro f₂ l now h1 _
      cases l with
      | nil => cases f₂ <;> rfl
      | cons kv rest => simp [sizeFields] at h1
    · intro f₂ i xs now h1 _
      cases xs with
      | nil => cases f₂ <;> rfl
      | cons x rest => simp [sizeElems] at h1
    · intro f₂ i cs now h1 _
      omega
  | succ f ih =>
    obtain ⟨ihg, ihf, iha, ihs⟩ := ih
    refine ⟨?_, ?_, ?_, ?_⟩
    · intro f₂ p name now h1 h2
      cases f₂ with
      | zero => exact absurd h2 (by have := sizeJV_pos p; omega)
      | succ f₂' =>
        show genBody p name now (fun gs => genFieldsF f gs now)
            (fun xs => genArrF f 0 xs now) (fun cs => genStrF f 0 cs now) =
          genBody p name now (fun gs => genFieldsF f₂' gs now)
            (fun xs => genArrF f₂' 0 xs now) (fun cs => genStrF f₂' 0 cs now)
        apply genBody_congr
        · intro gs heq
          have hsz := jsGet_size heq
          simp only [sizeJV] at hsz
          exact ihf f₂' gs now (by omega) (by omega)
        · intro xs heq
          have hsz := jsGet_size heq
          simp only [sizeJV] at hsz
          exact iha f₂' 0 xs now (by omega) (by omega)
        · intro t heq
          have hsz := jsGet_size heq
          simp only [sizeJV] at hsz
          have hlen : t.data.length = t.length := rfl
          exact ihs f₂' 0 t.data now (by omega) (by omega)
    · intro f₂ l now h1 h2
      cases f₂ with
      | zero =>
        cases l with
        | nil => rfl
        | cons kv rest => simp [sizeFields] at h2
      | succ f₂' =>
        cases l with
        | nil => rfl
        | cons kv rest =>
          obtain ⟨k, v⟩ := kv
          simp only [sizeFields] at h1 h2
          show (do
              let x ← genF f v k now
              let xs ← genFieldsF f rest now
              Except.ok (consField k x xs)) =
            (do
              let x ← genF f₂' v k now
              let xs ← genFieldsF f₂' rest now
              Except.ok (consField k x xs))
          rw [ihg f₂' v k now (by omega) (by omega),
              ihf f₂' rest now (by omega) (by omega)]
    · intro f₂ i xs now h1 h2
      cases f₂ with
      | zero =>
        cases xs with
        | nil => rfl
        | cons x rest => simp [sizeElems] at h2
      | succ f₂' =>
        cases xs with
        | nil => rfl
        | cons x rest =>
          simp only [sizeElems] at h1 h2
          show (do
              let v ← genF f x (toString i) now
              let vs ← genArrF f (i + 1) rest now
              Except.ok (consField (toString i) v vs)) =
            (do
              let v ← genF f₂' x (toString i) now
              let vs ← genArrF f₂' (i + 1) rest now
              Except.ok (consField (toString i) v vs))
          rw [ihg f₂' x (toString i) now (by omega) (by omega),
              iha f₂' (i + 1) rest now (by omega) (by omega)]
    · intro f₂ i cs now h1 h2
      cases f₂ with
      | zero => omega
      | succ f₂' =>
        cases cs with
        | nil => rfl
        | cons c rest =>
          simp only [List.length_cons] at h1 h2
          show (do
              let v ← genF f (.str ⟨[c]⟩) (toString i) now
              let vs ← genStrF f (i + 1) rest now
              Except.ok (consField (toString i) v vs)) =
            (do
              let v ← genF f₂' (.str ⟨[c]⟩) (toString i) now
              let vs ← genStrF f₂' (i + 1) rest now
              Except.ok (consField (toString i) v vs))
          have hsz : sizeJV (.str ⟨[c]⟩) = 17 := rfl
          rw [ihg f₂' (.str ⟨[c]⟩) (toString i) now (by omega) (by omega),
              ihs f₂' (i + 1) rest now (by omega) (by omega)]

/-- `generateExampleValue(property, name)` at its canonical (sufficient)
fuel. -/
def generateExampleValue (property : JV) (name : String) (now : String) :
    Except String (Option JV) :=
  genF (sizeJV property) property name now

/-- Synthesis of a nested `properties` object at canonical fuel. -/
def genFields (l : List (String × JV)) (now : String) :
    Except String (List (String × JV)) :=
  genFieldsF (sizeFields l) l now

theorem genFieldsF_eq (fuel : Nat) (l : List (String × JV)) (now : String)
    (h : sizeFields l ≤ fuel) : genFieldsF fuel l now = genFields l now :=
  (gen_fuel_all fuel).2.1 (sizeFields l) l now h le_rfl

/-- One-step unfolding of the synthesizer at canonical fuel. -/
theorem gen_unfold (p : JV) (name now : String) :
    generateExampleValue p name now =
      genBody p name now (fun gs => genFieldsF (sizeJV p - 1) gs now)
        (fun xs => genArrF (sizeJV p - 1) 0 xs now)
        (fun cs => genStrF (sizeJV p - 1) 0 cs now) := by
  unfold generateExampleValue
  obtain ⟨n, hn⟩ : ∃ n, sizeJV p = n + 1 :=
    ⟨sizeJV p - 1, by have := sizeJV_pos p; omega⟩
  have hn' : n = sizeJV p - 1 := by omega
  rw [hn, hn']
  rfl

/-- C3: the synthesizer's precedence — (1) the enum guard
`property.enum && property.enum.length > 0` wins, where `.length` is the
element/character count of an array/string or the `length` member of an
object, compared to `0` under `ToNumber`; the returned value is
`property.enum[0]` — the first element, the first character, or an
object's `"0"` member (`undefined` when that member is absent); (2)
otherwise an explicitly present `default` member (even a falsy one such as
`0`, `false` or `null`) is returned as-is; (3) otherwise the normalized
type is dispatched on: `integer` and `number` give `0`, `boolean` gives
`false`, `array` gives the empty sequence, and `object` gives the mapping
obtained by recursively synthesizing each nested `properties` entry (or
the empty mapping when there are none). -/
theorem generateExampleValue_spec (p : JV) (name now : String) :
    (∀ e, JV.jsGet p "enum" = some e →
      (JV.jsTruthy e && jsGtZero (lengthVal e)) = true →
      generateExampleValue p name now = .ok (index0 e)) ∧
    (p ≠ .null → enumFirst (JV.jsGet p "enum") = none →
      ∀ d, JV.jsGet p "default" = some d →
      generateExampleValue p name now = .ok (some d)) ∧
    (p ≠ .null → enumFirst (JV.jsGet p "enum") = none →
      JV.jsGet p "default" = none →
      ((normalizeWordPressType (typeOf p) = .str "integer" →
          generateExampleValue p name now = .ok (some (.num 0))) ∧
       (normalizeWordPressType (typeOf p) = .str "number" →
          generateExampleValue p name now = .ok (some (.num 0))) ∧
       (normalizeWordPressType (typeOf p) = .str "boolean" →
          generateExampleValue p name now = .ok (some (.bool false))) ∧
       (normalizeWordPressType (typeOf p) = .str "array" →
          generateExampleValue p name now = .ok (some (.arr []))) ∧
       (normalizeWordPressType (typeOf p) = .str "object" →
          ((∀ gs, JV.jsGet p "properties" = some (.obj gs) →
              generateExampleValue p name now =
                Except.map (fun fs => some (JV.obj fs)) (genFields gs now)) ∧
           (JV.jsGet p "properties" = none →
              generateExampleValue p name now = .ok (some (.obj []))))))) := by
  refine ⟨?_, ?_, ?_⟩
  · intro e henum hguard
    have hob : ∃ fs, p = .obj fs := by
      cases p <;> simp [JV.jsGet] at henum
      exact ⟨_, rfl⟩
    obtain ⟨fs, rfl⟩ := hob
    rw [gen_unfold]
    unfold genBody
    rw [henum]
    have he : enumFirst (some e) = some (index0 e) := by
      show (if (JV.jsTruthy e && jsGtZero (lengthVal e)) = true
          then some (index0 e) else none) = some (index0 e)
      rw [if_pos hguard]
    rw [he]
  · intro hp henum d hdef
    cases p
    case null => exact absurd rfl hp
    all_goals (rw [gen_unfold]; unfold genBody; rw [henum, hdef] <;> rfl)
  · intro hp henum hdef
    refine ⟨?_, ?_, ?_, ?_, ?_⟩
    · intro ht
      cases p
      case null => exact absurd rfl hp
      all_goals (rw [gen_unfold]; unfold genBody; rw [henum, hdef, ht] <;> rfl)
    · intro ht
      cases p
      case null => exact absurd rfl hp
      all_goals (rw [gen_unfold]; unfold genBody; rw [henum, hdef, ht] <;> rfl)
    · intro ht
      cases p
      case null => exact absurd rfl hp
      all_goals (rw [gen_unfold]; unfold genBody; rw [henum, hdef, ht] <;> rfl)
    · intro ht
      cases p
      case null => exact absurd rfl hp
      all_goals (rw [gen_unfold]; unfold genBody; rw [henum, hdef, ht] <;> rfl)
    · intro ht
      refine ⟨?_, ?_⟩
      · intro gs hprops
        have hob : ∃ fs, p = .obj fs := by
          cases p <;> simp [JV.jsGet] at hprops
          exact ⟨_, rfl⟩
        obtain ⟨fs, rfl⟩ := hob
        rw [gen_unfold]
        unfold genBody
        rw [henum, hdef, ht, hprops]
        have hsz := jsGet_size hprops
        have hc : sizeJV (JV.obj fs) = 4 + sizeFields fs := rfl
        have hg : sizeJV (JV.obj gs) = 4 + sizeFields gs := rfl
        exact congrArg (Except.map (fun fs => some (JV.obj fs)))
          (genFieldsF_eq _ gs now (by omega))
      · intro hprops
        cases p
        case null => exact absurd rfl hp
        all_goals (rw [gen_unfold]; unfold genBody; rw [henum, hdef, ht, hprops] <;> rfl)

/-- Witness for C3: an array enum wins over default; an *object* enum with a
`length` member passes the guard and its `"0"` member is returned; a falsy
default `0` is returned; normalized types dispatch; an object with nested
properties recurses. -/
theorem generateExampleValue_spec_witness :
    generateExampleValue (.obj [("enum", .arr [.str "draft", .str "publish"]),
        ("default", .str "publish")]) "status" "T" = .ok (some (.str "draft")) ∧
    generateExampleValue (.obj [("enum", .obj [("length", .num 1), ("0", .str "x")]),
        ("default", .num 5)]) "x" "T" = .ok (some (.str "x")) ∧
    generateExampleValue (.obj [("default", .num 0)]) "x" "T" = .ok (some (.num 0)) ∧
    generateExampleValue (.obj [("type", .str "bool")]) "x" "T" =
      .ok (some (.bool false)) ∧
    generateExampleValue (.obj [("type", .str "object"),
        ("properties", .obj [("flag", .obj [("type", .str "boolean")])])]) "x" "T" =
      .ok (some (.obj [("flag", .bool false)])) := by
  refine ⟨?_, ?_, ?_, ?_, ?_⟩
  · exact (generateExampleValue_spec (.obj [("enum", .arr [.str "draft", .str "publish"]),
      ("default", .str "publish")]) "status" "T").1
      (.arr [.str "draft", .str "publish"]) rfl rfl
  · exact (generateExampleValue_spec
      (.obj [("enum", .obj [("length", .num 1), ("0", .str "x")]),
        ("default", .num 5)]) "x" "T").1
      (.obj [("length", .num 1), ("0", .str "x")]) rfl rfl
  · exact (generateExampleValue_spec (.obj [("default", .num 0)]) "x" "T").2.1
      (by intro h; cases h) rfl (.num 0) rfl
  · exact ((generateExampleValue_spec (.obj [("type", .str "bool")]) "x" "T").2.2
      (by intro h; cases h) rfl rfl).2.2.1 rfl
  · have h := (((generateExampleValue_spec
      (.obj [("type", .str "object"),
        ("properties", .obj [("flag", .obj [("type", .str "boolean")])])])
      "x" "T").2.2 (by intro h; cases h) rfl rfl).2.2.2.2 rfl).1
      [("flag", .obj [("type", .str "boolean")])] rfl
    rw [h]
    rfl

/-! ### C9: determinism of the synthesizer

Apart from the `date-time` leaf (which returns the current timestamp), the
synthesizer is a pure function of its field definition and name.
`timeFreeBody`/`timeFreeF` delimit the inputs whose synthesis avoids that
leaf, mirroring the branch structure of `genBody`/`genF`. -/

/-- Can the corresponding `genBody` branch yield a time-dependent value? -/
def timeFreeBody (property : JV) (name : String)
    (tfFields : List (String × JV) → Bool) (tfArr : List JV → Bool) : Bool :=
  match property with
  | .null => true
  | _ =>
    match enumFirst (JV.jsGet property "enum") with
    | some _ => true
    | none =>
      match JV.jsGet property "default" with
      | some _ => true
      | none =>
        match normalizeWordPressType (typeOf property) with
        | .str "integer" => true
        | .str "number" => true
        | .str "boolean" => true
        | .str "array" => true
        | .str "object" =>
          (match JV.jsGet property "properties" with
           | some (.obj gs) => tfFields gs
           | some (.arr xs) => tfArr xs
           | _ => true)
        | _ =>
          match contextualString name with
          | some _ => true
          | none =>
            match JV.jsGet property "format" with
            | some (.str "date-time") => false
            | _ => true

mutual

/-- Fuelled time-independence predicate for a field definition. -/
def timeFreeF : Nat → JV → String → Bool
  | 0, _, _ => true
  | fuel + 1, property, name =>
    timeFreeBody property name (fun gs => timeFreeFieldsF fuel gs)
      (fun xs => timeFreeArrF fuel 0 xs)

/-- Time independence of every entry of an object-valued `properties`. -/
def timeFreeFieldsF : Nat → List (String × JV) → Bool
  | 0, _ => true
  | _ + 1, [] => true
  | fuel + 1, (k, v) :: rest => timeFreeF fuel v k && timeFreeFieldsF fuel rest

/-- Time independence of every entry of an array-valued `properties`. -/
def timeFreeArrF : Nat → Nat → List JV → Bool
  | 0, _, _ => true
  | _ + 1, _, [] => true
  | fuel + 1, i, x :: rest => timeFreeF fuel x (toString i) && timeFreeArrF fuel (i + 1) rest

end

/-- A field definition is time-free when its synthesis cannot reach the
`date-time` leaf. -/
def timeFree (p : JV) (name : String) : Bool := timeFreeF (sizeJV p) p name

/-- Synthesizing from a one-character string (the entries of a string-valued
`properties`) never consults the clock: such a value has no members, so the
format leaf is unreachable and the result is `""` or a contextual string. -/
theorem genF_str_char (fuel : Nat) (c : Char) (name now₁ now₂ : String) :
    genF fuel (.str ⟨[c]⟩) name now₁ = genF fuel (.str ⟨[c]⟩) name now₂ := by
  cases fuel with
  | zero => rfl
  | succ f => rfl

/-- Time independence of `genBody` under a true `timeFreeBody`. -/
theorem genBody_time_indep {property : JV} {name : String} (now₁ now₂ : String)
    {rf₁ rf₂ : List (String × JV) → Except String (List (String × JV))}
    {ra₁ ra₂ : List JV → Except String (List (String × JV))}
    {rs₁ rs₂ : List Char → Except String (List (String × JV))}
    {tff : List (String × JV) → Bool} {tfa : List JV → Bool}
    (hf : ∀ gs, JV.jsGet property "properties" = some (.obj gs) → tff gs = true →
      rf₁ gs = rf₂ gs)
    (ha : ∀ xs, JV.jsGet property "properties" = some (.arr xs) → tfa xs = true →
      ra₁ xs = ra₂ xs)
    (hs : ∀ t, JV.jsGet property "properties" = some (.str t) → rs₁ t.data = rs₂ t.data)
    (h : timeFreeBody property name tff tfa = true) :
    genBody property name now₁ rf₁ ra₁ rs₁ = genBody property name now₂ rf₂ ra₂ rs₂ := by
  unfold genBody
  unfold timeFreeBody at h
  cases property
  case null => rfl
  case obj fs =>
    repeat' split
    all_goals try rfl
    all_goals simp_all
  all_goals (
    repeat' split
    all_goals simp_all)

/-- Fuelled time independence, all four synthesizer components at once. -/
theorem gen_time_indep_all : ∀ fuel : Nat,
    (∀ p name now₁ now₂, timeFreeF fuel p name = true →
      genF fuel p name now₁ = genF fuel p name now₂) ∧
    (∀ l now₁ now₂, timeFreeFieldsF fuel l = true →
      genFieldsF fuel l now₁ = genFieldsF fuel l now₂) ∧
    (∀ i xs now₁ now₂, timeFreeArrF fuel i xs = true →
      genArrF fuel i xs now₁ = genArrF fuel i xs now₂) ∧
    (∀ i cs now₁ now₂, genStrF fuel i cs now₁ = genStrF fuel i cs now₂) := by
  intro fuel
  induction fuel with
  | zero => exact ⟨fun _ _ _ _ _ => rfl, fun _ _ _ _ => rfl, fun _ _ _ _ _ => rfl,
      fun _ _ _ _ => rfl⟩
  | succ f ih =>
    obtain ⟨ihg, ihf, iha, ihs⟩ := ih
    refine ⟨?_, ?_, ?_, ?_⟩
    · intro p name now₁ now₂ htf
      show genBody p name now₁ (fun gs => genFieldsF f gs now₁)
          (fun xs => genArrF f 0 xs now₁) (fun cs => genStrF f 0 cs now₁) =
        genBody p name now₂ (fun gs => genFieldsF f gs now₂)
          (fun xs => genArrF f 0 xs now₂) (fun cs => genStrF f 0 cs now₂)
      exact genBody_time_indep now₁ now₂
        (fun gs _ hg => ihf gs now₁ now₂ hg)
        (fun xs _ hx => iha 0 xs now₁ now₂ hx)
        (fun t _ => ihs 0 t.data now₁ now₂)
        htf
    · intro l now₁ now₂ htf
      cases l with
      | nil => rfl
      | cons kv rest =>
        obtain ⟨k, v⟩ := kv
        have htf' : timeFreeF f v k = true ∧ timeFreeFieldsF f rest = true := by
          have h0 : (timeFreeF f v k && timeFreeFieldsF f rest) = true := htf
          simpa [Bool.and_eq_true] using h0
        show (do
            let x ← genF f v k now₁
            let xs ← genFieldsF f rest now₁
            Except.ok (consField k x xs)) =
          (do
            let x ← genF f v k now₂
            let xs ← genFieldsF f rest now₂
            Except.ok (consField k x xs))
        rw [ihg v k now₁ now₂ htf'.1, ihf rest now₁ now₂ htf'.2]
    · intro i xs now₁ now₂ htf
      cases xs with
      | nil => rfl
      | cons x rest =>
        have htf' : timeFreeF f x (toString i) = true ∧
            timeFreeArrF f (i + 1) rest = true := by
          have h0 : (timeFreeF f x (toString i) && timeFreeArrF f (i + 1) rest) = true := htf
          simpa [Bool.and_eq_true] using h0
        show (do
            let v ← genF f x (toString i) now₁
            let vs ← genArrF f (i + 1) rest now₁
            Except.ok (consField (toString i) v vs)) =
          (do
            let v ← genF f x (toString i) now₂
            let vs ← genArrF f (i + 1) rest now₂
            Except.ok (consField (toString i) v vs))
        rw [ihg x (toString i) now₁ now₂ htf'.1, iha (i + 1) rest now₁ now₂ htf'.2]
    · intro i cs now₁ now₂
      cases cs with
      | nil => rfl
      | cons c rest =>
        show (do
            let v ← genF f (.str ⟨[c]⟩) (toString i) now₁
            let vs ← genStrF f (i + 1) rest now₁
            Except.ok (consField (toString i) v vs)) =
          (do
            let v ← genF f (.str ⟨[c]⟩) (toString i) now₂
            let vs ← genStrF f (i + 1) rest now₂
            Except.ok (consField (toString i) v vs))
        rw [genF_str_char f c (toString i) now₁ now₂, ihs (i + 1) rest now₁ now₂]

/-- C9: the synthesizer is deterministic — two calls on structurally equal
(not necessarily identical) field definitions with the same field name
produce equal example values, even at different call times, provided the
definition is time-free; the `date-time` format case is the only
time-dependent one, and `timeFree` excludes exactly it. -/
theorem generateExampleValue_deterministic (p₁ p₂ : JV) (name now₁ now₂ : String)
    (heq : p₁ = p₂) (htf : timeFree p₁ name = true) :
    generateExampleValue p₁ name now₁ = generateExampleValue p₂ name now₂ := by
  subst heq
  exact (gen_time_indep_all (sizeJV p₁)).1 p₁ name now₁ now₂ htf

/-- Witness for C9: a `status` field with an array enum, and a field with an
*object* enum carrying a `length` member together with a `date-time`
format (whose enum branch fires, so the clock is never consulted), both
synthesize identically at two different times. -/
theorem generateExampleValue_deterministic_witness :
    (generateExampleValue (.obj [("type", .str "string"),
        ("enum", .arr [.str "publish", .str "draft"])]) "status" "2020-01-01T00:00:00Z" =
      generateExampleValue (.obj [("type", .str "string"),
        ("enum", .arr [.str "publish", .str "draft"])]) "status" "2021-06-30T12:00:00Z") ∧
    (generateExampleValue (.obj [("enum", .obj [("length", .num 1), ("0", .str "x")]),
        ("format", .str "date-time")]) "x" "2020-01-01T00:00:00Z" =
      generateExampleValue (.obj [("enum", .obj [("length", .num 1), ("0", .str "x")]),
        ("format", .str "date-time")]) "x" "2021-06-30T12:00:00Z") :=
  ⟨generateExampleValue_deterministic _ _ "status" _ _ rfl rfl,
   generateExampleValue_deterministic _ _ "x" _ _ rfl rfl⟩

/-! ### Totality of the synthesizer on null-free definitions

The synthesizer's only throw site is reading a member of `null` (the
`property.enum` access).  `noNull` rules that out hereditarily. -/

mutual

/-- No `null` anywhere inside the value. -/
def noNull : JV → Bool
  | .null => false
  | .bool _ => true
  | .num _ => true
  | .str _ => true
  | .arr xs => noNullElems xs
  | .obj fs => noNullFields fs

/-- `noNull` for every field value. -/
def noNullFields : List (String × JV) → Bool
  | [] => true
  | (_, v) :: rest => noNull v && noNullFields rest

/-- `noNull` for every element. -/
def noNullElems : List JV → Bool
  | [] => true
  | x :: rest => noNull x && noNullElems rest

end

theorem lookupField_noNull {fs : List (String × JV)} {k : String} {v : JV}
    (hn : noNullFields fs = true) (h : JV.lookupField fs k = some v) :
    noNull v = true := by
  induction fs with
  | nil => simp [JV.lookupField] at h
  | cons kv rest ih =>
    obtain ⟨k', v'⟩ := kv
    have hn' : noNull v' = true ∧ noNullFields rest = true := by
      have h0 : (noNull v' && noNullFields rest) = true := hn
      simpa [Bool.and_eq_true] using h0
    unfold JV.lookupField at h
    by_cases hk : k' = k
    · simp [hk] at h
      exact h ▸ hn'.1
    · simp [hk] at h
      exact ih hn'.2 h

theorem jsGet_noNull {p : JV} {k : String} {v : JV}
    (hn : noNull p = true) (h : JV.jsGet p k = some v) : noNull v = true := by
  cases p with
  | obj fs => exact lookupField_noNull hn h
  | null => simp [JV.jsGet] at h
  | bool b => simp [JV.jsGet] at h
  | num n => simp [JV.jsGet] at h
  | str t => simp [JV.jsGet] at h
  | arr xs => simp [JV.jsGet] at h

/-- `genBody` succeeds on null-free input when its evaluators succeed on the
reachable `properties` value. -/
theorem genBody_ok {property : JV} (name now : String)
    {rf : List (String × JV) → Except String (List (String × JV))}
    {ra : List JV → Except String (List (String × JV))}
    {rs : List Char → Except String (List (String × JV))}
    (hnn : noNull property = true)
    (hf : ∀ gs, JV.jsGet property "properties" = some (.obj gs) → ∃ y, rf gs = .ok y)
    (ha : ∀ xs, JV.jsGet property "properties" = some (.arr xs) → ∃ y, ra xs = .ok y)
    (hs : ∀ t, JV.jsGet property "properties" = some (.str t) → ∃ y, rs t.data = .ok y) :
    ∃ v, genBody property name now rf ra rs = .ok v := by
  unfold genBody
  cases property
  case null => simp [noNull] at hnn
  case obj fs =>
    repeat' split
    all_goals try exact ⟨_, rfl⟩
    · next x heqn => exact JV.noConfusion heqn
    · next gs heq =>
      obtain ⟨y, hy⟩ := hf gs heq
      exact ⟨some (.obj y), by rw [hy]; rfl⟩
    · next xs heq =>
      obtain ⟨y, hy⟩ := ha xs heq
      exact ⟨some (.obj y), by rw [hy]; rfl⟩
    · next t heq =>
      obtain ⟨y, hy⟩ := hs t heq
      exact ⟨some (.obj y), by rw [hy]; rfl⟩
  all_goals (
    repeat' split
    all_goals first
      | exact ⟨_, rfl⟩
      | (rename_i heqn; simp [JV.jsGet] at heqn))

/-- Fuelled totality of all four synthesizer components on null-free input. -/
theorem gen_total_all : ∀ fuel : Nat,
    (∀ p name now, noNull p = true → ∃ v, genF fuel p name now = .ok v) ∧
    (∀ l now, noNullFields l = true → ∃ v, genFieldsF fuel l now = .ok v) ∧
    (∀ i xs now, noNullElems xs = true → ∃ v, genArrF fuel i xs now = .ok v) ∧
    (∀ i cs now, ∃ v, genStrF fuel i cs now = .ok v) := by
  intro fuel
  induction fuel with
  | zero => exact ⟨fun _ _ _ _ => ⟨_, rfl⟩, fun _ _ _ => ⟨_, rfl⟩,
      fun _ _ _ _ => ⟨_, rfl⟩, fun _ _ _ => ⟨_, rfl⟩⟩
  | succ f ih =>
    obtain ⟨ihg, ihf, iha, ihs⟩ := ih
    refine ⟨?_, ?_, ?_, ?_⟩
    · intro p name now hnn
      show ∃ v, genBody p name now (fun gs => genFieldsF f gs now)
          (fun xs => genArrF f 0 xs now) (fun cs => genStrF f 0 cs now) = .ok v
      refine genBody_ok name now hnn ?_ ?_ ?_
      · intro gs heq
        exact ihf gs now (jsGet_noNull hnn heq)
      · intro xs heq
        exact iha 0 xs now (jsGet_noNull hnn heq)
      · intro t heq
        exact ihs 0 t.data now
    · intro l now hnn
      cases l with
      | nil => exact ⟨[], rfl⟩
      | cons kv rest =>
        obtain ⟨k, v⟩ := kv
        have hn' : noNull v = true ∧ noNullFields rest = true := by
          have h0 : (noNull v && noNullFields rest) = true := hnn
          simpa [Bool.and_eq_true] using h0
        obtain ⟨x, hx⟩ := ihg v k now hn'.1
        obtain ⟨xs', hxs⟩ := ihf rest now hn'.2
        refine ⟨consField k x xs', ?_⟩
        show (do
            let x ← genF f v k now
            let xs ← genFieldsF f rest now
            Except.ok (consField k x xs)) = _
        rw [hx, hxs]
        rfl
    · intro i xs now hnn
      cases xs with
      | nil => exact ⟨[], rfl⟩
      | cons x rest =>
        have hn' : noNull x = true ∧ noNullElems rest = true := by
          have h0 : (noNull x && noNullElems rest) = true := hnn
          simpa [Bool.and_eq_true] using h0
        obtain ⟨v, hv⟩ := ihg x (toString i) now hn'.1
        obtain ⟨vs, hvs⟩ := iha (i + 1) rest now hn'.2
        refine ⟨consField (toString i) v vs, ?_⟩
        show (do
            let v ← genF f x (toString i) now
            let vs ← genArrF f (i + 1) rest now
            Except.ok (consField (toString i) v vs)) = _
        rw [hv, hvs]
        rfl
    · intro i cs now
      cases cs with
      | nil => exact ⟨[], rfl⟩
      | cons c rest =>
        obtain ⟨v, hv⟩ := ihg (.str ⟨[c]⟩) (toString i) now rfl
        obtain ⟨vs, hvs⟩ := ihs (i + 1) rest now
        refine ⟨consField (toString i) v vs, ?_⟩
        show (do
            let v ← genF f (.str ⟨[c]⟩) (toString i) now
            let vs ← genStrF f (i + 1) rest now
            Except.ok (consField (toString i) v vs)) = _
        rw [hv, hvs]
        rfl

/-- The synthesizer succeeds on every null-free field definition. -/
theorem generateExampleValue_total (p : JV) (name now : String)
    (hnn : noNull p = true) : ∃ v, generateExampleValue p name now = .ok v :=
  (gen_total_all (sizeJV p)).1 p name now hnn

/-! ### Request Body Composer (`generateRequestBody`)

Two passes build the merged body mapping: the endpoint's own arguments
(skipping `context`, path parameters, read-only and non-body arguments),
then the resource schema's common writable fields (skipping names already
populated and read-only properties).  The source finally returns
`JSON.stringify(body, null, 2)` when the mapping is non-empty and `null`
otherwise; we keep the mapping itself, with `none` for the `null` case. -/

/-- The fixed allow-list of common writable schema fields. -/
def commonWritableFields : List String :=
  ["title", "content", "excerpt", "status", "author", "slug", "password",
   "name", "description"]

/-- `getField v k = .ok o` forces `o` to be the total read. -/
theorem getField_ok {v : JV} {k : String} {o : Option JV}
    (h : JV.getField v k = .ok o) : o = JV.jsGet v k := by
  cases v
  case null => simp [JV.getField] at h
  all_goals (
    simp [JV.getField, JV.jsGet] at h ⊢
    first
    | exact h.symm
    | exact h
    | trivial)

/-- `arg.readonly === true`. -/
def isReadonlyTrue (o : Option JV) : Bool :=
  match o with
  | some (.bool true) => true
  | _ => false

/-- The synthetic property `{type, default, enum, format}` handed to the
synthesizer for a body argument.  A member set to `undefined` in the object
literal is observationally absent, so only defined members are
materialized; the reads use the total `jsGet` because on the path where
this value is used, the preceding `readonly` read has already ruled out a
`null` argument. -/
def mkArgProperty (arg : JV) : JV :=
  JV.obj (
    [("type", normalizeWordPressType (match JV.jsGet arg "type" with
        | some tv => if JV.jsTruthy tv then tv else .str "string"
        | none => .str "string"))] ++
    (match JV.jsGet arg "default" with | some dv => [("default", dv)] | none => []) ++
    (match JV.jsGet arg "enum" with
     | some ev => if JV.jsTruthy ev then [("enum", normalizeEnum ev)] else []
     | none => []) ++
    (match JV.jsGet arg "format" with | some fv => [("format", fv)] | none => []))

/-- One step of the first pass, in source effect order: the
`context`/path-parameter skip, the `readonly` read (which throws on a
`null` argument value), the location test, and — for body parameters —
example generation.  `body[paramName] = v` creates the key even for an
`undefined` example (see the header); its value is represented by
`null`. -/
def addArgToBody (method : String) (pathParams : List String) (now : String)
    (body : List (String × JV)) (argName : String) (arg : JV) :
    Except String (List (String × JV)) :=
  if argName = "context" ∨ argName ∈ pathParams then .ok body
  else
    (JV.getField arg "readonly").bind fun ro =>
      if isReadonlyTrue ro then .ok body
      else if getParameterLocation method argName pathParams = "body" then
        (generateExampleValue (mkArgProperty arg) argName now).map
          (fun x => objSet body argName (x.getD JV.null))
      else .ok body

/-- First pass over the argument mapping (lodash `each` with mutation). -/
def addArgsToBody (method : String) (pathParams : List String) (now : String) :
    List (String × JV) → List (String × JV) → Except String (List (String × JV))
  | body, [] => .ok body
  | body, (argName, arg) :: rest =>
    (addArgToBody method pathParams now body argName arg).bind fun body' =>
      addArgsToBody method pathParams now body' rest

/-- One step of the second pass: `body[name] !== undefined` short-circuits
before the `readonly` read (an already-present name never throws), then
the allow-list test.  As in the first pass, `body[name] = v` creates the
key even for an `undefined` example. -/
def addSchemaField (now : String) (body : List (String × JV))
    (name : String) (property : JV) : Except String (List (String × JV)) :=
  if (JV.lookupField body name).isSome then .ok body
  else
    (JV.getField property "readonly").bind fun ro =>
      if isReadonlyTrue ro then .ok body
      else if name ∈ commonWritableFields then
        (generateExampleValue property name now).map
          (fun x => objSet body name (x.getD JV.null))
      else .ok body

/-- Second pass over the resource schema's properties. -/
def addSchemaFields (now : String) : List (String × JV) → List (String × JV) →
    Except String (List (String × JV))
  | body, [] => .ok body
  | body, (name, property) :: rest =>
    (addSchemaField now body name property).bind fun body' =>
      addSchemaFields now body' rest

/-- The value iterated by the second pass: `schema?.properties` when truthy
(optional chaining never throws), else a non-iterable placeholder. -/
def schemaPropsVal (schema : JV) : JV :=
  match JV.jsGet schema "properties" with
  | some sp => if JV.jsTruthy sp then sp else .null
  | none => .null

/-- The merged body mapping `generateRequestBody` builds before
stringification.  The source guards the first pass with `if (args)`; a
falsy `args` (`null`, `false`, `0`, `""`) iterates nothing, which
coincides with `jsEachPairs` being empty on those values. -/
def bodyMerge (args schema : JV) (method : String) (pathParams : List String)
    (now : String) : Except String (List (String × JV)) :=
  (addArgsToBody method pathParams now [] (jsEachPairs args)).bind fun body₁ =>
    addSchemaFields now body₁ (jsEachPairs (schemaPropsVal schema))

/-- `generateRequestBody(args, schema, method, pathParams)`. -/
def generateRequestBody (args schema : JV) (method : String)
    (pathParams : List String) (now : String) :
    Except String (Option (List (String × JV))) :=
  (bodyMerge args schema method pathParams now).map fun body =>
    if body.length > 0 then some body else none

/-- Provenance of a key of the merged body: either a usable body-classified
argument of that name, or an allow-listed, non-read-only schema property of
that name.  The second disjunct is *not* filtered against the
path-parameter set — the basis of the C2 correction. -/
def bodyKeyOk (args schema : JV) (method : String) (pathParams : List String)
    (k : String) : Prop :=
  (∃ v, (k, v) ∈ jsEachPairs args ∧ k ≠ "context" ∧ k ∉ pathParams ∧
    getParameterLocation method k pathParams = "body" ∧
    isReadonlyTrue (JV.jsGet v "readonly") = false) ∨
  (∃ v, (k, v) ∈ jsEachPairs (schemaPropsVal schema) ∧
    k ∈ commonWritableFields ∧ isReadonlyTrue (JV.jsGet v "readonly") = false)

theorem mem_keys_objSet {body : List (String × JV)} {k k' : String} {v : JV} :
    k' ∈ (objSet body k v).map Prod.fst ↔ k' ∈ body.map Prod.fst ∨ k' = k := by
  induction body with
  | nil => simp [objSet]
  | cons kv rest ih =>
    obtain ⟨k0, v0⟩ := kv
    by_cases hk : k0 = k
    · subst hk
      simp [objSet]
      tauto
    · simp [objSet, hk, ih]
      tauto

theorem addArgToBody_keys {method : String} {pathParams : List String}
    {now : String} {body body' : List (String × JV)} {argName : String} {arg : JV}
    (h : addArgToBody method pathParams now body argName arg = .ok body') :
    ∀ k ∈ body'.map Prod.fst, k ∈ body.map Prod.fst ∨
      (k = argName ∧ k ≠ "context" ∧ k ∉ pathParams ∧
       getParameterLocation method k pathParams = "body" ∧
       isReadonlyTrue (JV.jsGet arg "readonly") = false) := by
  intro k hk
  unfold addArgToBody at h
  by_cases hskip : argName = "context" ∨ argName ∈ pathParams
  · rw [if_pos hskip] at h
    cases h
    exact Or.inl hk
  · rw [if_neg hskip] at h
    push_neg at hskip
    cases hro : JV.getField arg "readonly" with
    | error e =>
      rw [hro] at h
      exact absurd h (by simp [Except.bind])
    | ok ro =>
      rw [hro] at h
      have hrov := getField_ok hro
      simp only [Except.bind] at h
      by_cases hrot : isReadonlyTrue ro = true
      · rw [if_pos hrot] at h
        cases h
        exact Or.inl hk
      · rw [if_neg hrot] at h
        by_cases hloc : getParameterLocation method argName pathParams = "body"
        · rw [if_pos hloc] at h
          cases hgen : generateExampleValue (mkArgProperty arg) argName now with
          | error e =>
            rw [hgen] at h
            exact absurd h (by simp [Except.map])
          | ok x =>
            rw [hgen] at h
            simp only [Except.map, Except.ok.injEq] at h
            subst h
            rcases mem_keys_objSet.mp hk with h' | h'
            · exact Or.inl h'
            · subst h'
              refine Or.inr ⟨rfl, hskip.1, hskip.2, hloc, ?_⟩
              rw [← hrov]
              exact Bool.not_eq_true _ ▸ hrot
        · rw [if_neg hloc] at h
          cases h
          exact Or.inl hk

theorem addArgsToBody_keys {method : String} {pathParams : List String}
    {now : String} :
    ∀ {pairs body body' : List (String × JV)},
    addArgsToBody method pathParams now body pairs = .ok body' →
    ∀ k ∈ body'.map Prod.fst, k ∈ body.map Prod.fst ∨
      ∃ v, (k, v) ∈ pairs ∧ k ≠ "context" ∧ k ∉ pathParams ∧
       getParameterLocation method k pathParams = "body" ∧
       isReadonlyTrue (JV.jsGet v "readonly") = false := by
  intro pairs
  induction pairs with
  | nil =>
    intro body body' h k hk
    cases h
    exact Or.inl hk
  | cons p rest ih =>
    intro body body' h k hk
    obtain ⟨argName, arg⟩ := p
    unfold addArgsToBody at h
    cases hstep : addArgToBody method pathParams now body argName arg with
    | error e =>
      rw [hstep] at h
      exact absurd h (by simp [Except.bind])
    | ok bodyMid =>
      rw [hstep] at h
      simp only [Except.bind] at h
      rcases ih h k hk with hmid | ⟨v, hv, hrest⟩
      · rcases addArgToBody_keys hstep k hmid with hin | ⟨hkn, hcond⟩
        · exact Or.inl hin
        · subst hkn
          exact Or.inr ⟨arg, by simp, hcond⟩
      · exact Or.inr ⟨v, by simp [hv], hrest⟩

theorem addSchemaField_keys {now : String} {body body' : List (String × JV)}
    {name : String} {property : JV}
    (h : addSchemaField now body name property = .ok body') :
    ∀ k ∈ body'.map Prod.fst, k ∈ body.map Prod.fst ∨
      (k = name ∧ k ∈ commonWritableFields ∧
       isReadonlyTrue (JV.jsGet property "readonly") = false) := by
  intro k hk
  unfold addSchemaField at h
  by_cases hpresent : (JV.lookupField body name).isSome
  · rw [if_pos hpresent] at h
    cases h
    exact Or.inl hk
  · rw [if_neg hpresent] at h
    cases hro : JV.getField property "readonly" with
    | error e =>
      rw [hro] at h
      exact absurd h (by simp [Except.bind])
    | ok ro =>
      rw [hro] at h
      have hrov := getField_ok hro
      simp only [Except.bind] at h
      by_cases hrot : isReadonlyTrue ro = true
      · rw [if_pos hrot] at h
        cases h
        exact Or.inl hk
      · rw [if_neg hrot] at h
        by_cases hcommon : name ∈ commonWritableFields
        · rw [if_pos hcommon] at h
          cases hgen : generateExampleValue property name now with
          | error e =>
            rw [hgen] at h
            exact absurd h (by simp [Except.map])
          | ok x =>
            rw [hgen] at h
            simp only [Except.map, Except.ok.injEq] at h
            subst h
            rcases mem_keys_objSet.mp hk with h' | h'
            · exact Or.inl h'
            · subst h'
              refine Or.inr ⟨rfl, hcommon, ?_⟩
              rw [← hrov]
              exact Bool.not_eq_true _ ▸ hrot
        · rw [if_neg hcommon] at h
          cases h
          exact Or.inl hk

theorem addSchemaFields_keys {now : String} :
    ∀ {pairs body body' : List (String × JV)},
    addSchemaFields now body pairs = .ok body' →
    ∀ k ∈ body'.map Prod.fst, k ∈ body.map Prod.fst ∨
      ∃ v, (k, v) ∈ pairs ∧ k ∈ commonWritableFields ∧
        isReadonlyTrue (JV.jsGet v "readonly") = false := by
  intro pairs
  induction pairs with
  | nil =>
    intro body body' h k hk
    cases h
    exact Or.inl hk
  | cons p rest ih =>
    intro body body' h k hk
    obtain ⟨name, property⟩ := p
    unfold addSchemaFields at h
    cases hstep : addSchemaField now body name property with
    | error e =>
      rw [hstep] at h
      exact absurd h (by simp [Except.bind])
    | ok bodyMid =>
      rw [hstep] at h
      simp only [Except.bind] at h
      rcases ih h k hk with hmid | ⟨v, hv, hrest⟩
      · rcases addSchemaField_keys hstep k hmid with hin | ⟨hkn, hcond⟩
        · exact Or.inl hin
        · subst hkn
          exact Or.inr ⟨property, by simp, hcond⟩
      · exact Or.inr ⟨v, by simp [hv], hrest⟩

/-- C2, amended: `composeBody` returns `none` exactly when the merged body
mapping is empty; every key of a non-`none` result either names a
non-read-only body-classified argument outside the path-parameter set, or
names an allow-listed non-read-only schema property — the latter *without*
a path-parameter filter. -/
theorem generateRequestBody_spec (args schema : JV) (method : String)
    (pathParams : List String) (now : String) :
    (∀ m, bodyMerge args schema method pathParams now = .ok m →
      (generateRequestBody args schema method pathParams now = .ok none ↔ m = [])) ∧
    (∀ m, generateRequestBody args schema method pathParams now = .ok (some m) →
      m ≠ [] ∧ ∀ k ∈ m.map Prod.fst, bodyKeyOk args schema method pathParams k) := by
  constructor
  · intro m hm
    unfold generateRequestBody
    rw [hm]
    simp only [Except.map]
    cases m with
    | nil => simp
    | cons kv rest => simp
  · intro m hm
    unfold generateRequestBody at hm
    cases hbm : bodyMerge args schema method pathParams now with
    | error e =>
      rw [hbm] at hm
      exact absurd hm (by simp [Except.map])
    | ok body =>
      rw [hbm] at hm
      simp only [Except.map, Except.ok.injEq] at hm
      by_cases hlen : body.length > 0
      · rw [if_pos hlen] at hm
        injection hm with hm2
        subst hm2
        constructor
        · intro hnil
          rw [hnil] at hlen
          simp at hlen
        · intro k hk
          unfold bodyMerge at hbm
          cases h1 : addArgsToBody method pathParams now [] (jsEachPairs args) with
          | error e =>
            rw [h1] at hbm
            exact absurd hbm (by simp [Except.bind])
          | ok body₁ =>
            rw [h1] at hbm
            simp only [Except.bind] at hbm
            rcases addSchemaFields_keys hbm k hk with hin | ⟨v, hv, hc1, hc2⟩
            · rcases addArgsToBody_keys h1 k hin with hnil | ⟨v, hv, hc⟩
              · simp at hnil
              · exact Or.inl ⟨v, hv, hc⟩
            · exact Or.inr ⟨v, hv, hc1, hc2⟩
      · rw [if_neg hlen] at hm
        exact absurd hm (by simp)

/-- Witness for C2 (amended): a single writable `title` argument on a POST
yields a body containing exactly `title`, which satisfies the provenance
predicate. -/
theorem generateRequestBody_spec_witness :
    generateRequestBody (.obj [("title", .obj [("type", .str "string")])]) .null
      "POST" ["id"] "T" = .ok (some [("title", .str "Example Title")]) ∧
    bodyKeyOk (.obj [("title", .obj [("type", .str "string")])]) .null
      "POST" ["id"] "title" := by
  constructor
  · rfl
  · have h := (generateRequestBody_spec
      (.obj [("title", .obj [("type", .str "string")])]) .null "POST" ["id"] "T").2
      [("title", .str "Example Title")] rfl
    exact h.2 "title" (by simp)

/-- Counterexample to C2 as stated: with path-parameter set `[name]`, an
empty argument mapping and a schema whose `name` property is writable, the
composed body is non-`none` and its key set contains the path-parameter
name `name` (the schema pass does not consult the path parameters). -/
theorem generateRequestBody_pathParam_counterexample :
    generateRequestBody (.obj []) (.obj [("properties", .obj [("name", .obj [])])])
      "POST" ["name"] "T" = .ok (some [("name", .str "Example Title")]) ∧
    "name" ∈ ["name"] :=
  ⟨rfl, by decide⟩

/-! ### Endpoint Transformer (`transformWordPressEndpoint`)

The produced request descriptor, minus the members the model omits (random
`uid`s, the constant `auth`/`script`/`vars`/`seq` members).  The generated
test script is modelled as the list of assertions it contains: the source
emits `test("Status code is N", ...)` and, for collection GETs, an
additional `test("Response is an array", ...)`. -/

/-- A path or query parameter entry.  `description` is kept as a JSON value:
the source stores `arg.description || ''` unchanged unless constraint text
is appended (which stringifies it). -/
structure BrunoParam where
  name : String
  value : String
  description : JV
  enabled : Bool
  type : String

/-- A request header. -/
structure BrunoHeader where
  name : String
  value : String
  description : String
  enabled : Bool

/-- The request body: `mode` is `none` or `json`; `json` holds the mapping
the source pretty-prints with `JSON.stringify(body, null, 2)`. -/
structure BrunoBody where
  mode : String
  json : Option (List (String × JV))

/-- One default test assertion. -/
inductive Assertion where
  | statusIs (code : Nat)
  | bodyIsArray

/-- The request part of a descriptor. -/
structure BrunoRequest where
  url : String
  method : String
  headers : List BrunoHeader
  params : List BrunoParam
  body : BrunoBody
  tests : List Assertion

/-- A produced request descriptor. -/
structure BrunoItem where
  name : String
  request : BrunoRequest

/-- The `Content-Type: application/json` header attached to mutating
requests. -/
def contentTypeHeader : BrunoHeader :=
  { name := "Content-Type", value := "application/json", description := "",
    enabled := true }

/-- The display-name decision table (the `switch (methodUpper)` block).  The
autosave/revision sub-checks are the case-insensitive regex tests
`/autosaves\/\(\?P<id>/i` and `/revisions\/\(\?P<id>/i`. -/
def nameFor (methodUpper resource : String)
    (hasIdParam isAutosave isRevision isCollection : Bool) (route : String) : String :=
  if methodUpper = "GET" then
    if isAutosave then
      if hasIdParam ∧ strContains (asciiLower route) "autosaves/(?p<id>" then
        "Get " ++ resource ++ " autosave by ID"
      else "List " ++ resource ++ " autosaves"
    else if isRevision then
      if hasIdParam ∧ strContains (asciiLower route) "revisions/(?p<id>" then
        "Get " ++ resource ++ " revision by ID"
      else "List " ++ resource ++ " revisions"
    else if hasIdParam then "Get " ++ resource ++ " by ID"
    else if isCollection then "List " ++ resource
    else "Get " ++ resource
  else if methodUpper = "POST" then
    if isAutosave then "Create " ++ resource ++ " autosave"
    else if isRevision then "Create " ++ resource ++ " revision"
    else "Create " ++ resource
  else if methodUpper = "PUT" ∨ methodUpper = "PATCH" then "Update " ++ resource
  else if methodUpper = "DELETE" then
    if isAutosave then "Delete " ++ resource ++ " autosave"
    else if isRevision then "Delete " ++ resource ++ " revision"
    else "Delete " ++ resource
  else methodUpper ++ " " ++ route

/-- `arg.description || ''`. -/
def descrOr (dsc : Option JV) : JV :=
  match dsc with
  | some v => if JV.jsTruthy v then v else .str ""
  | none => .str ""

/-- `description += (description ? '. ' : '') + part` (string coercion as in
JS `+=`). -/
def addDescrPart (d : JV) (part : String) : JV :=
  .str (jsToString d ++ (if JV.jsTruthy d then ". " else "") ++ part)

/-- Truthiness of an optional member. -/
def optTruthy (o : Option JV) : Bool :=
  match o with
  | some v => JV.jsTruthy v
  | none => false

/-- The `Min length`/`Max length` rendering. -/
def lengthPart (constraints : JV) : String :=
  let ml := JV.jsGet constraints "minLength"
  let xl := JV.jsGet constraints "maxLength"
  (if optTruthy ml then "Min length: " ++ jsToString (ml.getD .null) else "") ++
  (if optTruthy ml ∧ optTruthy xl then ", " else "") ++
  (if optTruthy xl then "Max length: " ++ jsToString (xl.getD .null) else "")

/-- The augmented description of a query parameter: base description, then
`Allowed values: ...` for a truthy constraint enum (a `TypeError` when that
enum is not an array), then the length constraints. -/
def queryDescription (arg constraints : JV) : Except String JV :=
  let d0 := descrOr (JV.jsGet arg "description")
  (match JV.jsGet constraints "enum" with
   | some ce =>
     if JV.jsTruthy ce then
       (jsJoin ce ", ").map fun joined => addDescrPart d0 ("Allowed values: " ++ joined)
     else .ok d0
   | none => .ok d0).map fun d1 =>
    if optTruthy (JV.jsGet constraints "minLength") ∨
       optTruthy (JV.jsGet constraints "maxLength") then
      addDescrPart d1 (lengthPart constraints)
    else d1

/-- Process one argument of the `each(args, ...)` loop: skip `context`, add a
path entry for path parameters (always enabled), add a query entry for
query parameters (enabled iff required, value from the stringified
default, description augmented with constraints); body parameters are left
to the Request Body Composer. -/
def processArg (methodUpper : String) (pathParams : List String)
    (params : List BrunoParam) (argName : String) (arg : JV) :
    Except String (List BrunoParam) :=
  if argName = "context" then .ok params
  else if getParameterLocation methodUpper argName pathParams = "path" then
    (JV.getField arg "description").map fun dsc =>
      params ++ [{ name := argName, value := "", description := descrOr dsc,
                   enabled := true, type := "path" }]
  else if getParameterLocation methodUpper argName pathParams = "query" then
    (JV.getField arg "default").bind fun dv =>
      (isParameterRequired arg false).bind fun isReq =>
        (extractValidationConstraints arg).bind fun constraints =>
          (queryDescription arg constraints).map fun descr =>
            let qp : BrunoParam :=
              { name := argName,
                value := (match dv with
                  | some v => jsToString v
                  | none => ""),
                description := descr, enabled := isReq, type := "query" }
            params ++ [qp]
  else .ok params

/-- The `each(args, ...)` loop. -/
def processArgs (methodUpper : String) (pathParams : List String) :
    List BrunoParam → List (String × JV) → Except String (List BrunoParam)
  | params, [] => .ok params
  | params, (argName, arg) :: rest =>
    (processArg methodUpper pathParams params argName arg).bind fun params' =>
      processArgs methodUpper pathParams params' rest

/-- The five disabled pagination/sorting conveniences for list GETs. -/
def commonListParams : List (String × String × String) :=
  [("page", "1", "Current page of the collection"),
   ("per_page", "10", "Maximum number of items to be returned"),
   ("search", "", "Limit results to those matching a string"),
   ("orderby", "date", "Sort collection by object attribute"),
   ("order", "desc", "Order sort attribute ascending or descending")]

/-- A disabled query parameter from the convenience table. -/
def mkCommonParam (p : String × String × String) : BrunoParam :=
  { name := p.1, value := p.2.1, description := .str p.2.2, enabled := false,
    type := "query" }

/-- The disabled `_embed` parameter. -/
def embedParam : BrunoParam :=
  { name := "_embed", value := "1",
    description := .str "Include embedded resources in response",
    enabled := false, type := "query" }

/-- Append the five conveniences (each only when no parameter of that name is
present) and then `_embed` (unconditionally — the source has no presence
check for it). -/
def addCommonParams (params : List BrunoParam) : List BrunoParam :=
  (commonListParams.foldl (fun acc p =>
    if (acc.find? (fun q => q.name == p.1)).isSome then acc
    else acc ++ [mkCommonParam p]) params) ++ [embedParam]

/-- `endpoint.args || {}`. -/
def endpointArgs (endpoint : JV) : Except String JV :=
  (JV.getField endpoint "args").map fun argsOpt =>
    match argsOpt with
    | some a => if JV.jsTruthy a then a else JV.obj []
    | none => JV.obj []

/-- `transformWordPressEndpoint(route, method, endpoint, schema, baseUrl)`.
`baseUrl` is unused by the source (`_baseUrl`); `now` is the clock value
used by the synthesizer. -/
def transformWordPressEndpoint (route method : String) (endpoint schema : JV)
    (now : String) : Except String BrunoItem :=
  (endpointArgs endpoint).bind fun args =>
    let methodUpper := asciiUpper method
    let resource := match wpResource route with | some r => r | none => "resource"
    let hasIdParam := strContains route "(?P<"
    let isAutosave := strContains route "autosaves"
    let isRevision := strContains route "revisions"
    let isCollection := isCollectionEndpoint route
    let name := nameFor methodUpper resource hasIdParam isAutosave isRevision
      isCollection route
    let url := "\x7b\x7bbaseUrl\x7d\x7d" ++ brunoUrlOfRoute route
    let headers := if methodUpper = "POST" ∨ methodUpper = "PUT" ∨ methodUpper = "PATCH"
      then [contentTypeHeader] else []
    let pathParams := extractPathParameters route
    (processArgs methodUpper pathParams [] (jsEachPairs args)).bind fun params₀ =>
      let params₁ := if methodUpper = "GET" ∧ ¬ hasIdParam
        then addCommonParams params₀ else params₀
      (if methodUpper = "POST" ∨ methodUpper = "PUT" ∨ methodUpper = "PATCH"
       then generateRequestBody args schema methodUpper pathParams now
       else .ok none).bind fun bodyJson =>
        let body : BrunoBody := match bodyJson with
          | some m => { mode := "json", json := some m }
          | none => { mode := "none", json := none }
        let tests :=
          [Assertion.statusIs (if methodUpper = "POST" then 201 else 200)] ++
          (if methodUpper = "GET" ∧ isCollection ∧ ¬ hasIdParam
           then [Assertion.bodyIsArray] else [])
        let req : BrunoRequest :=
          { url := url, method := methodUpper, headers := headers,
            params := params₁, body := body, tests := tests }
        .ok { name := name, request := req }

/-! ### C1: the GET-by-id scenario -/

/-- C1, amended: a GET on `/wp/v2/posts/(?P<id>[\\d]+)` with an empty
argument mapping yields the descriptor named "Get posts by ID" with URL
template `\x7b\x7bbaseUrl\x7d\x7d/wp/v2/posts/:id`, body mode `none`, a single
`200`-status assertion — and an *empty* parameter list: parameter entries
(including the `id` path entry) are created only while iterating the
argument mapping, so an empty mapping produces none. -/
theorem transform_get_by_id_scenario :
    transformWordPressEndpoint "/wp/v2/posts/(?P<id>[\\d]+)" "GET" (.obj []) .null "T" =
      .ok { name := "Get posts by ID",
            request :=
              { url := "\x7b\x7bbaseUrl\x7d\x7d/wp/v2/posts/:id", method := "GET",
                headers := [], params := [],
                body := { mode := "none", json := none },
                tests := [.statusIs 200] } } := rfl

/-- Counterexample to C1 as stated: at the claim's exact input the parameter
list has zero entries, not exactly one required enabled `id` path entry. -/
theorem transform_get_by_id_params_empty :
    (transformWordPressEndpoint "/wp/v2/posts/(?P<id>[\\d]+)" "GET" (.obj [])
      .null "T").map (fun it => it.request.params.length) = .ok 0 := rfl

/-! ### C10: DELETE endpoints -/

theorem getParameterLocation_delete (methodUpper argName : String)
    (pathParams : List String) (hm : methodUpper = "DELETE") :
    getParameterLocation methodUpper argName pathParams = "path" ∨
    getParameterLocation methodUpper argName pathParams = "body" := by
  subst hm
  unfold getParameterLocation
  by_cases hmem : argName ∈ pathParams
  · simp [hmem]
  · have hup : asciiUpper "DELETE" = "DELETE" := rfl
    simp [hmem, hup]

/-- `processArg` under DELETE either leaves the list unchanged or appends one
path-typed entry. -/
theorem processArg_delete {pathParams : List String} {params params' : List BrunoParam}
    {argName : String} {arg : JV}
    (h : processArg "DELETE" pathParams params argName arg = .ok params') :
    ∀ p ∈ params', p ∈ params ∨ p.type = "path" := by
  intro p hp
  unfold processArg at h
  by_cases hctx : argName = "context"
  · rw [if_pos hctx] at h
    cases h
    exact Or.inl hp
  · rw [if_neg hctx] at h
    rcases getParameterLocation_delete "DELETE" argName pathParams rfl with hloc | hloc
    · rw [if_pos hloc] at h
      cases hd : JV.getField arg "description" with
      | error e =>
        rw [hd] at h
        exact absurd h (by simp [Except.map])
      | ok dsc =>
        rw [hd] at h
        simp only [Except.map, Except.ok.injEq] at h
        subst h
        rcases List.mem_append.mp hp with h' | h'
        · exact Or.inl h'
        · simp at h'
          subst h'
          exact Or.inr rfl
    · rw [hloc] at h
      simp only [if_neg (by decide : ¬("body" : String) = "path"),
        if_neg (by decide : ¬("body" : String) = "query")] at h
      cases h
      exact Or.inl hp

theorem processArgs_delete {pathParams : List String} :
    ∀ {pairs : List (String × JV)} {params params' : List BrunoParam},
    processArgs "DELETE" pathParams params pairs = .ok params' →
    (∀ p ∈ params, p.type = "path") → ∀ p ∈ params', p.type = "path" := by
  intro pairs
  induction pairs with
  | nil =>
    intro params params' h hall p hp
    cases h
    exact hall p hp
  | cons kv rest ih =>
    intro params params' h hall p hp
    obtain ⟨argName, arg⟩ := kv
    unfold processArgs at h
    cases hstep : processArg "DELETE" pathParams params argName arg with
    | error e =>
      rw [hstep] at h
      exact absurd h (by simp [Except.bind])
    | ok paramsMid =>
      rw [hstep] at h
      simp only [Except.bind] at h
      refine ih h (fun q hq => ?_) p hp
      rcases processArg_delete hstep q hq with h' | h'
      · exact hall q h'
      · exact h'

/-- C10: a DELETE descriptor composes no body (mode `none`, no JSON), carries
no `Content-Type` header, and its parameter list consists of path entries
only — non-path DELETE arguments appear neither as parameters nor in a
body. -/
theorem transform_delete_spec (route method : String) (endpoint schema : JV)
    (now : String) (item : BrunoItem)
    (hm : asciiUpper method = "DELETE")
    (h : transformWordPressEndpoint route method endpoint schema now = .ok item) :
    item.request.body.mode = "none" ∧ item.request.body.json = none ∧
    item.request.headers = [] ∧ ∀ p ∈ item.request.params, p.type = "path" := by
  unfold transformWordPressEndpoint at h
  cases hargs : endpointArgs endpoint with
  | error e =>
    rw [hargs] at h
    exact absurd h (by simp [Except.bind])
  | ok args =>
    rw [hargs] at h
    simp only [Except.bind] at h
    rw [hm] at h
    cases hpa : processArgs "DELETE" (extractPathParameters route) []
        (jsEachPairs args) with
    | error e =>
      rw [hpa] at h
      exact absurd h (by simp)
    | ok params₀ =>
      rw [hpa] at h
      simp only [show (("DELETE" : String) = "GET") = False by simp,
        show (("DELETE" : String) = "POST") = False by simp,
        show (("DELETE" : String) = "PUT") = False by simp,
        show (("DELETE" : String) = "PATCH") = False by simp,
        false_and, or_self, false_or, if_false, if_neg] at h
      cases h
      refine ⟨rfl, rfl, rfl, ?_⟩
      exact processArgs_delete hpa (fun p hp => absurd hp (by simp))

/-- Witness for C10 at a concrete DELETE endpoint with a path argument and a
body-classified argument. -/
theorem transform_delete_spec_witness :
    transformWordPressEndpoint "/wp/v2/posts/(?P<id>[\\d]+)" "DELETE"
      (.obj [("args", .obj [("id", .obj []), ("force", .obj [])])]) .null "T" =
      .ok { name := "Delete posts",
            request :=
              { url := "\x7b\x7bbaseUrl\x7d\x7d/wp/v2/posts/:id", method := "DELETE",
                headers := [],
                params := [{ name := "id", value := "", description := .str "",
                             enabled := true, type := "path" }],
                body := { mode := "none", json := none },
                tests := [.statusIs 200] } } ∧
    ("none" = "none" ∧ (none : Option (List (String × JV))) = none ∧
      ([] : List BrunoHeader) = [] ∧
      ∀ p ∈ [({ name := "id", value := "", description := .str "",
                enabled := true, type := "path" } : BrunoParam)], p.type = "path") := by
  constructor
  · rfl
  · exact transform_delete_spec "/wp/v2/posts/(?P<id>[\\d]+)" "DELETE"
      (.obj [("args", .obj [("id", .obj []), ("force", .obj [])])]) .null "T" _
      rfl rfl

/-! ### C6: the list-GET convenience parameters -/

/-- Folding the convenience table with a presence check against the running
accumulator equals filtering against the initial list, because the table's
names are pairwise distinct. -/
theorem foldl_common (cps : List (String × String × String)) :
    ∀ base : List BrunoParam,
    (cps.map (fun p => p.1)).Pairwise (· ≠ ·) →
    cps.foldl (fun acc p =>
      if (acc.find? (fun q => q.name == p.1)).isSome then acc
      else acc ++ [mkCommonParam p]) base =
    base ++ (cps.filter
      (fun p => (base.find? (fun q => q.name == p.1)).isNone)).map mkCommonParam := by
  induction cps with
  | nil => intro base _; simp
  | cons p cps' ih =>
    intro base hpw
    rw [List.map_cons, List.pairwise_cons] at hpw
    obtain ⟨hhead, htail⟩ := hpw
    simp only [List.foldl_cons, List.filter_cons]
    by_cases hfind : (base.find? (fun q => q.name == p.1)).isSome
    · rw [if_pos hfind]
      have hnone : (base.find? (fun q => q.name == p.1)).isNone = false := by
        cases hb : base.find? (fun q => q.name == p.1) with
        | none => rw [hb] at hfind; simp at hfind
        | some q => rfl
      rw [hnone]
      simp only [Bool.false_eq_true, if_false]
      exact ih base htail
    · rw [if_neg hfind]
      have hnone : (base.find? (fun q => q.name == p.1)).isNone = true := by
        cases hb : base.find? (fun q => q.name == p.1) with
        | none => rfl
        | some q => rw [hb] at hfind; simp at hfind
      rw [hnone]
      simp only [if_true]
      rw [ih (base ++ [mkCommonParam p]) htail]
      have hfilter : cps'.filter
          (fun q => (((base ++ [mkCommonParam p]).find?
            (fun r => r.name == q.1)).isNone)) =
        cps'.filter (fun q => ((base.find? (fun r => r.name == q.1)).isNone)) := by
        apply List.filter_congr
        intro q hq
        have hne : p.1 ≠ q.1 := hhead q.1 (List.mem_map_of_mem _ hq)
        rw [List.find?_append]
        have hsingle : ([mkCommonParam p].find? (fun r => r.name == q.1)) = none := by
          have hne' : (p.1 == q.1) = false := beq_eq_false_iff_ne.mpr hne
          simp [List.find?, mkCommonParam, hne']
        rw [hsingle]
        cases base.find? (fun r => r.name == q.1) <;> rfl
      rw [hfilter]
      simp [List.append_assoc]

/-- `addCommonParams` in closed form: the five conveniences filtered by
absence from the *input* list, then `_embed` unconditionally. -/
theorem addCommonParams_eq (base : List BrunoParam) :
    addCommonParams base =
      base ++ (commonListParams.filter
        (fun p => (base.find? (fun q => q.name == p.1)).isNone)).map mkCommonParam
        ++ [embedParam] := by
  unfold addCommonParams
  rw [foldl_common commonListParams base (by decide)]

/-- C6, amended: for a GET endpoint without a path identifier the final
parameter list is the argument-derived list `base`, followed by those of
the five disabled pagination/sorting parameters (`page`, `per_page`,
`search`, `orderby`, `order`) whose names are *not* already present in
`base`, followed by the disabled `_embed` parameter — which is appended
unconditionally, with no presence check. -/
theorem transform_get_list_common_params (route method : String)
    (endpoint schema : JV) (now : String) (item : BrunoItem)
    (hm : asciiUpper method = "GET") (hid : strContains route "(?P<" = false)
    (h : transformWordPressEndpoint route method endpoint schema now = .ok item) :
    ∃ base, item.request.params =
      base ++ (commonListParams.filter
        (fun p => (base.find? (fun q => q.name == p.1)).isNone)).map mkCommonParam
        ++ [embedParam] := by
  unfold transformWordPressEndpoint at h
  cases hargs : endpointArgs endpoint with
  | error e =>
    rw [hargs] at h
    exact absurd h (by simp [Except.bind])
  | ok args =>
    rw [hargs] at h
    simp only [Except.bind] at h
    rw [hm, hid] at h
    cases hpa : processArgs "GET" (extractPathParameters route) []
        (jsEachPairs args) with
    | error e =>
      rw [hpa] at h
      exact absurd h (by simp)
    | ok params₀ =>
      rw [hpa] at h
      simp only [show (("GET" : String) = "POST") = False by simp,
        show (("GET" : String) = "PUT") = False by simp,
        show (("GET" : String) = "PATCH") = False by simp,
        or_self, false_or, if_false, Bool.not_false, and_true, if_true,
        show ((("GET" : String) = "GET") ∧ ¬false = true) = True by simp,
        if_pos] at h
      cases h
      exact ⟨params₀, addCommonParams_eq params₀⟩

/-- Witness for C6 (amended) on the bare `/wp/v2/posts` list route. -/
theorem transform_get_list_common_params_witness :
    (transformWordPressEndpoint "/wp/v2/posts" "GET" (.obj []) .null "T").map
      (fun it => it.request.params) =
    .ok (([] : List BrunoParam) ++ (commonListParams.filter
      (fun p => (([] : List BrunoParam).find? (fun q => q.name == p.1)).isNone)).map
        mkCommonParam ++ [embedParam]) := by
  obtain ⟨base, hb⟩ := transform_get_list_common_params "/wp/v2/posts" "GET"
    (.obj []) .null "T" _ rfl rfl rfl
  rfl

/-- Counterexample to C6 as stated: an endpoint already carrying an `_embed`
argument ends up with *two* `_embed` parameters — the `_embed` append has
no presence check. -/
theorem transform_embed_duplicate_counterexample :
    (transformWordPressEndpoint "/wp/v2/posts" "GET"
      (.obj [("args", .obj [("_embed", .obj [])])]) .null "T").map
        (fun it => (it.request.params.filter (fun p => p.name == "_embed")).length) =
      .ok 2 := rfl

/-! ### C7: failure semantics of the Endpoint Transformer -/

/-- A member read on any non-`null` value succeeds with the total read. -/
theorem getField_total (v : JV) (k : String) (hne : v ≠ .null) :
    JV.getField v k = .ok (JV.jsGet v k) := by
  cases v
  case null => exact absurd rfl hne
  all_goals rfl

/-- The value of `endpoint.args || \x7b\x7d`. -/
def argsVal (endpoint : JV) : JV :=
  match JV.jsGet endpoint "args" with
  | some a => if JV.jsTruthy a then a else JV.obj []
  | none => JV.obj []

/-- Reading the argument mapping succeeds on a non-`null` endpoint. -/
theorem endpointArgs_ok (endpoint : JV) (hne : endpoint ≠ .null) :
    endpointArgs endpoint = .ok (argsVal endpoint) := by
  unfold endpointArgs argsVal
  rw [getField_total endpoint "args" hne]
  rfl

/-- The synthetic body property is an object. -/
theorem mkArgProperty_ne_null (arg : JV) : mkArgProperty arg ≠ .null :=
  fun h => JV.noConfusion h

/-- The synthetic body property has no `properties` member, so the
synthesizer never recurses through it. -/
theorem mkArgProperty_no_props (arg : JV) :
    JV.jsGet (mkArgProperty arg) "properties" = none := by
  unfold mkArgProperty
  cases JV.jsGet arg "default" <;>
    cases JV.jsGet arg "enum" <;>
      cases JV.jsGet arg "format"
  all_goals try rfl
  all_goals (
    repeat' split
    all_goals rfl)

/-- `genBody` succeeds whenever the field definition is not `null` and has
no `properties` member, regardless of `null`s elsewhere inside it. -/
theorem genBody_ok_no_props {property : JV} (name now : String)
    {rf : List (String × JV) → Except String (List (String × JV))}
    {ra : List JV → Except String (List (String × JV))}
    {rs : List Char → Except String (List (String × JV))}
    (hne : property ≠ .null)
    (hp : JV.jsGet property "properties" = none) :
    ∃ v, genBody property name now rf ra rs = .ok v := by
  unfold genBody
  cases property
  case null => exact absurd rfl hne
  case obj fs =>
    repeat' split
    all_goals try exact ⟨_, rfl⟩
    · next x heqn => exact JV.noConfusion heqn
    · next gs heq => rw [hp] at heq; exact Option.noConfusion heq
    · next xs heq => rw [hp] at heq; exact Option.noConfusion heq
    · next t heq => rw [hp] at heq; exact Option.noConfusion heq
  all_goals (
    repeat' split
    all_goals first
      | exact ⟨_, rfl⟩
      | (rename_i heqn; simp [JV.jsGet] at heqn))

/-- The synthesizer succeeds on any field definition without a `properties`
member. -/
theorem generateExampleValue_ok_no_props (p : JV) (name now : String)
    (hne : p ≠ .null) (hp : JV.jsGet p "properties" = none) :
    ∃ v, generateExampleValue p name now = .ok v := by
  show ∃ v, genF (sizeJV p) p name now = .ok v
  cases hf : sizeJV p with
  | zero => exact ⟨_, rfl⟩
  | succ f =>
    show ∃ v, genBody p name now (fun gs => genFieldsF f gs now)
        (fun xs => genArrF f 0 xs now) (fun cs => genStrF f 0 cs now) = .ok v
    exact genBody_ok_no_props name now hne hp

/-- A null-free value is not `null`. -/
theorem ne_null_of_noNull {v : JV} (h : noNull v = true) : v ≠ .null := by
  intro he
  rw [he] at h
  exact Bool.noConfusion h

/-- One first-pass step of the composer succeeds on a non-`null` argument
value. -/
theorem addArgToBody_ok (method : String) (pathParams : List String)
    (now : String) (body : List (String × JV)) (argName : String) (arg : JV)
    (hne : arg ≠ JV.null) :
    ∃ body', addArgToBody method pathParams now body argName arg = .ok body' := by
  unfold addArgToBody
  split
  · exact ⟨_, rfl⟩
  · rw [getField_total arg "readonly" hne]
    simp only [Except.bind]
    split
    · exact ⟨_, rfl⟩
    · split
      · obtain ⟨v, hv⟩ := generateExampleValue_ok_no_props (mkArgProperty arg)
          argName now (mkArgProperty_ne_null arg) (mkArgProperty_no_props arg)
        exact ⟨_, by rw [hv]; rfl⟩
      · exact ⟨_, rfl⟩

/-- The first pass succeeds when every argument value is non-`null`. -/
theorem addArgsToBody_ok (method : String) (pathParams : List String)
    (now : String) :
    ∀ (pairs : List (String × JV)) (body : List (String × JV)),
    (∀ pr ∈ pairs, pr.2 ≠ JV.null) →
    ∃ body', addArgsToBody method pathParams now body pairs = .ok body' := by
  intro pairs
  induction pairs with
  | nil => intro body _; exact ⟨body, rfl⟩
  | cons kv rest ih =>
    intro body hall
    obtain ⟨argName, arg⟩ := kv
    obtain ⟨body₁, h₁⟩ := addArgToBody_ok method pathParams now body argName arg
      (hall (argName, arg) (List.mem_cons_self _ _))
    obtain ⟨body₂, h₂⟩ := ih body₁ (fun pr hpr => hall pr (List.mem_cons_of_mem _ hpr))
    refine ⟨body₂, ?_⟩
    show (addArgToBody method pathParams now body argName arg).bind
      (fun body' => addArgsToBody method pathParams now body' rest) = .ok body₂
    rw [h₁]
    simp only [Except.bind]
    exact h₂

/-- One second-pass step of the composer succeeds on a null-free schema
property. -/
theorem addSchemaField_ok (now : String) (body : List (String × JV))
    (name : String) (property : JV) (hnn : noNull property = true) :
    ∃ body', addSchemaField now body name property = .ok body' := by
  unfold addSchemaField
  split
  · exact ⟨_, rfl⟩
  · rw [getField_total property "readonly" (ne_null_of_noNull hnn)]
    simp only [Except.bind]
    split
    · exact ⟨_, rfl⟩
    · split
      · obtain ⟨v, hv⟩ := generateExampleValue_total property name now hnn
        exact ⟨_, by rw [hv]; rfl⟩
      · exact ⟨_, rfl⟩

/-- The second pass succeeds when every iterated schema property is
null-free. -/
theorem addSchemaFields_ok (now : String) :
    ∀ (pairs : List (String × JV)) (body : List (String × JV)),
    (∀ pr ∈ pairs, noNull pr.2 = true) →
    ∃ body', addSchemaFields now body pairs = .ok body' := by
  intro pairs
  induction pairs with
  | nil => intro body _; exact ⟨body, rfl⟩
  | cons kv rest ih =>
    intro body hall
    obtain ⟨name, property⟩ := kv
    obtain ⟨body₁, h₁⟩ := addSchemaField_ok now body name property
      (hall (name, property) (List.mem_cons_self _ _))
    obtain ⟨body₂, h₂⟩ := ih body₁ (fun pr hpr => hall pr (List.mem_cons_of_mem _ hpr))
    refine ⟨body₂, ?_⟩
    show (addSchemaField now body name property).bind
      (fun body' => addSchemaFields now body' rest) = .ok body₂
    rw [h₁]
    simp only [Except.bind]
    exact h₂

/-- The Request Body Composer succeeds when argument values are non-`null`
and the iterated schema properties are null-free. -/
theorem generateRequestBody_ok (args schema : JV) (method : String)
    (pathParams : List String) (now : String)
    (ha : ∀ pr ∈ jsEachPairs args, pr.2 ≠ JV.null)
    (hs : ∀ pr ∈ jsEachPairs (schemaPropsVal schema), noNull pr.2 = true) :
    ∃ r, generateRequestBody args schema method pathParams now = .ok r := by
  obtain ⟨body₁, h₁⟩ := addArgsToBody_ok method pathParams now
    (jsEachPairs args) [] ha
  obtain ⟨body₂, h₂⟩ := addSchemaFields_ok now
    (jsEachPairs (schemaPropsVal schema)) body₁ hs
  refine ⟨if body₂.length > 0 then some body₂ else none, ?_⟩
  unfold generateRequestBody bodyMerge
  rw [h₁]
  simp only [Except.bind]
  rw [h₂]
  rfl

/-- The `required` read succeeds on a non-`null` argument. -/
theorem isParameterRequired_ok (arg : JV) (hne : arg ≠ JV.null) :
    ∃ b, isParameterRequired arg false = .ok b := by
  unfold isParameterRequired
  rw [if_neg Bool.false_ne_true]
  rw [getField_total arg "required" hne]
  cases JV.jsGet arg "required" with
  | none => exact ⟨_, rfl⟩
  | some v => cases v <;> exact ⟨_, rfl⟩

/-- `copyConstraints` on a non-`null` argument succeeds, and the copied
mapping looks up exactly the argument's members at the listed keys. -/
theorem copyConstraints_lookup (arg : JV) (hne : arg ≠ JV.null) :
    ∀ cs : List String, ∃ fs, copyConstraints arg cs = .ok fs ∧
      ∀ k, JV.lookupField fs k = if k ∈ cs then JV.jsGet arg k else none := by
  intro cs
  induction cs with
  | nil =>
    refine ⟨[], rfl, ?_⟩
    intro k
    simp [JV.lookupField]
  | cons c cs' ih =>
    obtain ⟨fs', hfs', hlk⟩ := ih
    cases hg : JV.jsGet arg c with
    | none =>
      refine ⟨fs', ?_, ?_⟩
      · show (JV.getField arg c).bind (fun v =>
          (copyConstraints arg cs').bind (fun rest =>
            match v with
            | some w => Except.ok ((c, w) :: rest)
            | none => Except.ok rest)) = Except.ok fs'
        rw [getField_total arg c hne, hg, hfs']
        rfl
      · intro k
        rw [hlk k]
        by_cases hk : k ∈ cs'
        · rw [if_pos hk, if_pos (List.mem_cons_of_mem c hk)]
        · rw [if_neg hk]
          by_cases hkc : k = c
          · subst hkc
            rw [if_pos (List.mem_cons_self k cs')]
            exact hg.symm
          · rw [if_neg (by
              intro hmem
              rcases List.mem_cons.mp hmem with h' | h'
              · exact hkc h'
              · exact hk h')]
    | some w =>
      refine ⟨(c, w) :: fs', ?_, ?_⟩
      · show (JV.getField arg c).bind (fun v =>
          (copyConstraints arg cs').bind (fun rest =>
            match v with
            | some w' => Except.ok ((c, w') :: rest)
            | none => Except.ok rest)) = Except.ok ((c, w) :: fs')
        rw [getField_total arg c hne, hg, hfs']
        rfl
      · intro k
        show (if c = k then some w else JV.lookupField fs' k) =
          if k ∈ c :: cs' then JV.jsGet arg k else none
        by_cases hck : c = k
        · subst hck
          rw [if_pos rfl, if_pos (List.mem_cons_self c cs')]
          exact hg.symm
        · rw [if_neg hck, hlk k]
          by_cases hk : k ∈ cs'
          · rw [if_pos hk, if_pos (List.mem_cons_of_mem c hk)]
          · rw [if_neg hk, if_neg (by
              intro hmem
              rcases List.mem_cons.mp hmem with h' | h'
              · exact hck h'.symm
              · exact hk h')]

/-- Updating a member makes it the looked-up value. -/
theorem lookupField_objSet_self (fs : List (String × JV)) (k : String) (v : JV) :
    JV.lookupField (objSet fs k v) k = some v := by
  induction fs with
  | nil => simp [objSet, JV.lookupField]
  | cons kv rest ih =>
    obtain ⟨k', v'⟩ := kv
    unfold objSet
    by_cases hk : k' = k
    · rw [if_pos hk]
      simp [JV.lookupField]
    · rw [if_neg hk]
      show (if k' = k then some v' else JV.lookupField (objSet rest k v) k) = some v
      rw [if_neg hk]
      exact ih

/-- The shape condition on a declared `enum`: a truthy `enum` member must be
an array (`.join` throws on anything else). -/
def enumOk (arg : JV) : Bool :=
  match JV.jsGet arg "enum" with
  | some e =>
    if JV.jsTruthy e then (match e with | .arr _ => true | _ => false) else true
  | none => true

/-- `extractValidationConstraints` in terms of a successful copy. -/
theorem evc_eq (arg : JV) {fs : List (String × JV)}
    (hfs : copyConstraints arg supportedConstraints = .ok fs) :
    extractValidationConstraints arg =
      match JV.lookupField fs "enum" with
      | some e =>
        if JV.jsTruthy e then .ok (.obj (objSet fs "enum" (normalizeEnum e)))
        else .ok (.obj fs)
      | none => .ok (.obj fs) := by
  unfold extractValidationConstraints
  rw [hfs]
  rfl

/-- Constraint extraction and the query-description build both succeed on a
non-`null` argument whose truthy `enum`, if any, is an array. -/
theorem evc_qd_ok (arg : JV) (hne : arg ≠ JV.null) (he : enumOk arg = true) :
    ∃ c d, extractValidationConstraints arg = .ok c ∧
      queryDescription arg c = .ok d := by
  obtain ⟨fs, hfs, hlk⟩ := copyConstraints_lookup arg hne supportedConstraints
  have hl : JV.lookupField fs "enum" = JV.jsGet arg "enum" := by
    rw [hlk "enum", if_pos (by decide : ("enum" : String) ∈ supportedConstraints)]
  cases hg : JV.jsGet arg "enum" with
  | none =>
    have hln : JV.lookupField fs "enum" = none := hl.trans hg
    have hevc : extractValidationConstraints arg = .ok (.obj fs) := by
      rw [evc_eq arg hfs, hln]
    have hqd : ∃ d, queryDescription arg (.obj fs) = .ok d := by
      unfold queryDescription
      rw [show JV.jsGet (JV.obj fs) "enum" = none from hln]
      exact ⟨_, rfl⟩
    obtain ⟨d, hd⟩ := hqd
    exact ⟨_, d, hevc, hd⟩
  | some e =>
    have hle : JV.lookupField fs "enum" = some e := hl.trans hg
    by_cases ht : JV.jsTruthy e
    · have harr : ∃ xs, e = JV.arr xs := by
        unfold enumOk at he
        rw [hg] at he
        cases e
        case arr xs => exact ⟨xs, rfl⟩
        all_goals simp_all [JV.jsTruthy]
      obtain ⟨xs, rfl⟩ := harr
      have hevc : extractValidationConstraints arg =
          .ok (.obj (objSet fs "enum" (normalizeEnum (.arr xs)))) := by
        rw [evc_eq arg hfs, hle]
        rfl
      have hqd : ∃ d, queryDescription arg
          (.obj (objSet fs "enum" (normalizeEnum (.arr xs)))) = .ok d := by
        unfold queryDescription
        rw [show JV.jsGet (JV.obj (objSet fs "enum" (normalizeEnum (.arr xs))))
            "enum" = some (normalizeEnum (.arr xs)) from
          lookupField_objSet_self fs "enum" (normalizeEnum (.arr xs))]
        exact ⟨_, rfl⟩
      obtain ⟨d, hd⟩ := hqd
      exact ⟨_, d, hevc, hd⟩
    · have hevc : extractValidationConstraints arg = .ok (.obj fs) := by
        rw [evc_eq arg hfs, hle]
        simp only []
        rw [if_neg ht]
      have hqd : ∃ d, queryDescription arg (.obj fs) = .ok d := by
        unfold queryDescription
        rw [show JV.jsGet (JV.obj fs) "enum" = some e from hle]
        simp only []
        rw [if_neg ht]
        exact ⟨_, rfl⟩
      obtain ⟨d, hd⟩ := hqd
      exact ⟨_, d, hevc, hd⟩

/-- `processArg` succeeds on a non-`null` argument whose truthy `enum`, if
any, is an array. -/
theorem processArg_ok (methodUpper : String) (pathParams : List String)
    (params : List BrunoParam) (argName : String) (arg : JV)
    (hne : arg ≠ JV.null) (he : enumOk arg = true) :
    ∃ params', processArg methodUpper pathParams params argName arg = .ok params' := by
  unfold processArg
  split
  · exact ⟨_, rfl⟩
  · split
    · rw [getField_total arg "description" hne]
      exact ⟨_, rfl⟩
    · split
      · rw [getField_total arg "default" hne]
        obtain ⟨b, hb⟩ := isParameterRequired_ok arg hne
        obtain ⟨c, d, hc, hd⟩ := evc_qd_ok arg hne he
        rw [hb, hc]
        simp only [Except.bind]
        rw [hd]
        exact ⟨_, rfl⟩
      · exact ⟨_, rfl⟩

/-- The argument loop succeeds when every argument value is non-`null` with
a well-shaped `enum`. -/
theorem processArgs_ok (methodUpper : String) (pathParams : List String) :
    ∀ (pairs : List (String × JV)) (params : List BrunoParam),
    (∀ pr ∈ pairs, pr.2 ≠ JV.null ∧ enumOk pr.2 = true) →
    ∃ params', processArgs methodUpper pathParams params pairs = .ok params' := by
  intro pairs
  induction pairs with
  | nil => intro params _; exact ⟨params, rfl⟩
  | cons kv rest ih =>
    intro params hall
    obtain ⟨argName, arg⟩ := kv
    obtain ⟨hne, he⟩ := hall (argName, arg) (List.mem_cons_self _ _)
    obtain ⟨params₁, h₁⟩ := processArg_ok methodUpper pathParams params argName arg hne he
    obtain ⟨params₂, h₂⟩ := ih params₁ (fun pr hpr => hall pr (List.mem_cons_of_mem _ hpr))
    refine ⟨params₂, ?_⟩
    show (processArg methodUpper pathParams params argName arg).bind
      (fun params' => processArgs methodUpper pathParams params' rest) = .ok params₂
    rw [h₁]
    simp only [Except.bind]
    exact h₂

/-- C7, amended: the Endpoint Transformer is *not* total over arbitrary
malformed input (see the counterexample: a `null` argument value makes the
`arg.description`/`arg.readonly` reads throw, which only the caller's
per-endpoint `try`/`catch` contains).  It does succeed for every route,
method and resource schema whenever (i) the endpoint value itself is not
`null`, (ii) every value in the iterated argument mapping is non-`null` and
declares, if a truthy `enum`, an array one, and (iii) every property in the
iterated schema `properties` mapping is null-free. -/
theorem transform_total (route method : String) (endpoint schema : JV)
    (now : String)
    (hend : endpoint ≠ JV.null)
    (ha : ∀ pr ∈ jsEachPairs (argsVal endpoint),
      pr.2 ≠ JV.null ∧ enumOk pr.2 = true)
    (hs : ∀ pr ∈ jsEachPairs (schemaPropsVal schema), noNull pr.2 = true) :
    ∃ item, transformWordPressEndpoint route method endpoint schema now = .ok item := by
  unfold transformWordPressEndpoint
  rw [endpointArgs_ok endpoint hend]
  simp only [Except.bind]
  obtain ⟨params₀, hp⟩ := processArgs_ok (asciiUpper method)
    (extractPathParameters route) (jsEachPairs (argsVal endpoint)) [] ha
  rw [hp]
  simp only [Except.bind]
  by_cases hb : asciiUpper method = "POST" ∨ asciiUpper method = "PUT" ∨
      asciiUpper method = "PATCH"
  · rw [if_pos hb]
    obtain ⟨r, hr⟩ := generateRequestBody_ok (argsVal endpoint) schema
      (asciiUpper method) (extractPathParameters route) now
      (fun pr hpr => (ha pr hpr).1) hs
    rw [hr]
    exact ⟨_, rfl⟩
  · rw [if_neg hb]
    exact ⟨_, rfl⟩

/-- Witness for C7 (amended) on a POST endpoint with one argument and one
schema property. -/
theorem transform_total_witness :
    ∃ item, transformWordPressEndpoint "/wp/v2/posts" "POST"
      (JV.obj [("args", JV.obj [("title", JV.obj [("type", JV.str "string")])])])
      (JV.obj [("properties", JV.obj [("status", JV.obj [("type", JV.str "string")])])])
      "T" = .ok item := by
  refine transform_total "/wp/v2/posts" "POST"
    (JV.obj [("args", JV.obj [("title", JV.obj [("type", JV.str "string")])])])
    (JV.obj [("properties", JV.obj [("status", JV.obj [("type", JV.str "string")])])])
    "T" (fun h => JV.noConfusion h) ?_ ?_
  · intro pr hpr
    rw [show jsEachPairs (argsVal (JV.obj [("args",
        JV.obj [("title", JV.obj [("type", JV.str "string")])])])) =
      [("title", JV.obj [("type", JV.str "string")])] from rfl] at hpr
    have hpr' := List.mem_singleton.mp hpr
    subst hpr'
    exact ⟨fun h => JV.noConfusion h, rfl⟩
  · intro pr hpr
    rw [show jsEachPairs (schemaPropsVal (JV.obj [("properties",
        JV.obj [("status", JV.obj [("type", JV.str "string")])])])) =
      [("status", JV.obj [("type", JV.str "string")])] from rfl] at hpr
    have hpr' := List.mem_singleton.mp hpr
    subst hpr'
    rfl

/-- Counterexample to C7 as stated: a `null` argument value makes the
transform itself throw a `TypeError` (at the `arg.description` read of the
path branch) instead of degrading to defaults. -/
theorem transform_null_arg_counterexample :
    transformWordPressEndpoint "/wp/v2/posts/(?P<id>[\\d]+)" "GET"
      (.obj [("args", .obj [("id", JV.null)])]) .null "T" =
      .error "TypeError: cannot read properties of null (reading description)" := rfl

/-! ### C8: the Folder Organizer (`organizeIntoFolders`)

The organizer groups descriptors by the namespace (`name/vN`) and resource
captured from the URL by `\/([^\/]+\/v\d+)\/([^\/:?]+)`, keeping a `Map`
from namespace to a folder whose items are resource folders; every lookup
and insertion preserves insertion order.  The regex match is deterministic:
each greedy class excludes the character the pattern requires next, so no
backtracking can produce a different match, and `String.match` returns the
leftmost match. -/

/-- Match of `\/([^\/]+\/v\d+)\/([^\/:?]+)` at the head of the character
list: a slash, the namespace (a nonempty slashless run, `/v`, a nonempty
digit run), a slash, and the resource (a nonempty run without `/`, `:`,
`?`). -/
def nsResAt : List Char → Option (String × String)
  | '/' :: rest =>
    let t1 := rest.takeWhile (fun c => c != '/')
    (match rest.dropWhile (fun c => c != '/') with
     | '/' :: 'v' :: rest2 =>
       let ds := rest2.takeWhile Char.isDigit
       (match rest2.dropWhile Char.isDigit with
        | '/' :: rest3 =>
          let t2 := rest3.takeWhile (fun c => c != '/' && c != ':' && c != '?')
          if t1.isEmpty || ds.isEmpty || t2.isEmpty then none
          else some (⟨t1 ++ '/' :: 'v' :: ds⟩, ⟨t2⟩)
        | _ => none)
     | _ => none)
  | _ => none

/-- Leftmost match: try every start position from the left. -/
def findNsRes : List Char → Option (String × String)
  | [] => none
  | c :: rest =>
    match nsResAt (c :: rest) with
    | some r => some r
    | none => findNsRes rest

/-- `url.match(/\/([^\/]+\/v\d+)\/([^\/:?]+)/)`, as the two captures. -/
def urlNsRes (url : String) : Option (String × String) := findNsRes url.data

/-- `namespace.replace(/\//g, '-')`. -/
def nsName (ns : String) : String :=
  ⟨ns.data.map (fun c => if c = '/' then '-' else c)⟩

/-- An output tree node: a folder or a request descriptor. -/
inductive BItem where
  | folder (name : String) (items : List BItem)
  | req (item : BrunoItem)

/-- Find-or-create the resource folder and push the item (`find` compares
folder names in order; `push` appends). -/
def addToRes : List (String × List BrunoItem) → String → BrunoItem →
    List (String × List BrunoItem)
  | [], res, it => [(res, [it])]
  | (r, its) :: rest, res, it =>
    if r = res then (r, its ++ [it]) :: rest
    else (r, its) :: addToRes rest res it

/-- Find-or-create the namespace entry of the `Map` (insertion order) and
add the item under its resource. -/
def addToNs : List (String × List (String × List BrunoItem)) → String → String →
    BrunoItem → List (String × List (String × List BrunoItem))
  | [], ns, res, it => [(ns, [(res, [it])])]
  | (n, rs) :: rest, ns, res, it =>
    if n = ns then (n, addToRes rs res it) :: rest
    else (n, rs) :: addToNs rest ns res it

/-- One `forEach` step: a matching URL files the item; a non-matching URL is
dropped. -/
def orgStep (acc : List (String × List (String × List BrunoItem)))
    (it : BrunoItem) : List (String × List (String × List BrunoItem)) :=
  match urlNsRes it.request.url with
  | some (ns, res) => addToNs acc ns res it
  | none => acc

/-- The namespace map after the `forEach` loop. -/
def organizeState (items : List BrunoItem) :
    List (String × List (String × List BrunoItem)) :=
  items.foldl orgStep []

/-- Render a resource entry as a folder of requests. -/
def renderRes (p : String × List BrunoItem) : BItem :=
  .folder p.1 (p.2.map .req)

/-- Render a namespace entry: the folder is named with slashes replaced by
dashes. -/
def renderNs (p : String × List (String × List BrunoItem)) : BItem :=
  .folder (nsName p.1) (p.2.map renderRes)

/-- `organizeIntoFolders(items)`: `Array.from(namespaceMap.values())`. -/
def organizeIntoFolders (items : List BrunoItem) : List BItem :=
  (organizeState items).map renderNs

/-! The declarative form the specification describes: first-seen orders and
filters over the list of matching descriptors. -/

/-- The descriptors whose URL matches, with their captures, in input
order. -/
def matchedOf (items : List BrunoItem) : List (BrunoItem × String × String) :=
  items.filterMap (fun it => (urlNsRes it.request.url).map (fun p => (it, p.1, p.2)))

/-- Deduplicate keeping the first occurrence of each element. -/
def firstSeen (l : List String) : List String :=
  l.foldl (fun acc x => if x ∈ acc then acc else acc ++ [x]) []

/-- All matched namespaces, with repetitions, in input order. -/
def nsList (items : List BrunoItem) : List String :=
  (matchedOf items).map (fun m => m.2.1)

/-- All resources matched under a namespace, with repetitions, in input
order. -/
def resList (items : List BrunoItem) (ns : String) : List String :=
  ((matchedOf items).filter (fun m => m.2.1 = ns)).map (fun m => m.2.2)

/-- The descriptors filed under a namespace and resource, in input order. -/
def reqList (items : List BrunoItem) (ns res : String) : List BrunoItem :=
  ((matchedOf items).filter (fun m => m.2.1 = ns ∧ m.2.2 = res)).map (fun m => m.1)

/-- The specification's description of the output: namespace folders in
first-seen order, resource folders in first-seen order within each
namespace, and each matching descriptor appended to its resource folder. -/
def organizeSpec (items : List BrunoItem) : List BItem :=
  (firstSeen (nsList items)).map (fun ns =>
    .folder (nsName ns)
      ((firstSeen (resList items ns)).map (fun res =>
        .folder res ((reqList items ns res).map .req))))

/-- The declarative namespace map. -/
def resFolders (items : List BrunoItem) (ns : String) :
    List (String × List BrunoItem) :=
  (firstSeen (resList items ns)).map (fun res => (res, reqList items ns res))

/-- The declarative state: `organizeState` in spec form. -/
def stateSpec (items : List BrunoItem) :
    List (String × List (String × List BrunoItem)) :=
  (firstSeen (nsList items)).map (fun ns => (ns, resFolders items ns))

theorem mem_firstSeen_foldl (x : String) : ∀ (l acc : List String),
    (x ∈ l.foldl (fun a y => if y ∈ a then a else a ++ [y]) acc) ↔
      x ∈ acc ∨ x ∈ l := by
  intro l
  induction l with
  | nil => intro acc; simp
  | cons y l ih =>
    intro acc
    rw [List.foldl_cons, ih]
    by_cases hy : y ∈ acc
    · rw [if_pos hy]
      constructor
      · rintro (h | h)
        · exact Or.inl h
        · exact Or.inr (List.mem_cons_of_mem y h)
      · rintro (h | h)
        · exact Or.inl h
        · rcases List.mem_cons.mp h with h' | h'
          · exact Or.inl (by rw [h']; exact hy)
          · exact Or.inr h'
    · rw [if_neg hy]
      constructor
      · rintro (h | h)
        · rcases List.mem_append.mp h with h' | h'
          · exact Or.inl h'
          · exact Or.inr (List.mem_cons.mpr (Or.inl (List.mem_singleton.mp h')))
        · exact Or.inr (List.mem_cons_of_mem y h)
      · rintro (h | h)
        · exact Or.inl (List.mem_append.mpr (Or.inl h))
        · rcases List.mem_cons.mp h with h' | h'
          · exact Or.inl (List.mem_append.mpr (Or.inr (List.mem_singleton.mpr h')))
          · exact Or.inr h' 

theorem mem_firstSeen (x : String) (l : List String) :
    x ∈ firstSeen l ↔ x ∈ l := by
  unfold firstSeen
  rw [mem_firstSeen_foldl]
  simp

theorem firstSeen_foldl_nodup : ∀ (l acc : List String), acc.Nodup →
    (l.foldl (fun a y => if y ∈ a then a else a ++ [y]) acc).Nodup := by
  intro l
  induction l with
  | nil => intro acc h; exact h
  | cons y l ih =>
    intro acc h
    rw [List.foldl_cons]
    by_cases hy : y ∈ acc
    · rw [if_pos hy]
      exact ih acc h
    · rw [if_neg hy]
      refine ih _ (List.nodup_append.mpr ⟨h, List.nodup_singleton y, ?_⟩)
      intro a ha hay
      rw [List.mem_singleton] at hay
      subst hay
      exact hy ha

theorem firstSeen_nodup (l : List String) : (firstSeen l).Nodup :=
  firstSeen_foldl_nodup l [] List.nodup_nil

theorem firstSeen_snoc {l : List String} {x : String} :
    firstSeen (l ++ [x]) =
      if x ∈ firstSeen l then firstSeen l else firstSeen l ++ [x] := by
  unfold firstSeen
  rw [List.foldl_append]
  rfl

theorem firstSeen_snoc_mem {l : List String} {x : String} (h : x ∈ l) :
    firstSeen (l ++ [x]) = firstSeen l := by
  rw [firstSeen_snoc, if_pos ((mem_firstSeen x l).mpr h)]

theorem firstSeen_snoc_not_mem {l : List String} {x : String} (h : x ∉ l) :
    firstSeen (l ++ [x]) = firstSeen l ++ [x] := by
  rw [firstSeen_snoc, if_neg (fun hc => h ((mem_firstSeen x l).mp hc))]

theorem addToRes_map {K : List String} {h : String → List BrunoItem}
    {res : String} {it : BrunoItem} (hnd : K.Nodup) (hmem : res ∈ K) :
    addToRes (K.map (fun r => (r, h r))) res it =
      K.map (fun r => (r, if r = res then h r ++ [it] else h r)) := by
  induction K with
  | nil => exact absurd hmem (List.not_mem_nil res)
  | cons r K' ih =>
    rw [List.map_cons, List.map_cons]
    unfold addToRes
    by_cases hr : r = res
    · rw [if_pos hr, if_pos hr]
      subst hr
      congr 1
      apply List.map_congr_left
      intro r' hr'
      rw [if_neg (show ¬ r' = r from fun hc => (List.nodup_cons.mp hnd).1 (hc ▸ hr'))]
    · rw [if_neg hr, if_neg hr]
      rw [ih (List.nodup_cons.mp hnd).2 (by
        rcases List.mem_cons.mp hmem with hc | hc
        · exact absurd hc.symm hr
        · exact hc)]

theorem addToRes_map_not_mem {K : List String} {h : String → List BrunoItem}
    {res : String} {it : BrunoItem} (hmem : res ∉ K) :
    addToRes (K.map (fun r => (r, h r))) res it =
      K.map (fun r => (r, h r)) ++ [(res, [it])] := by
  induction K with
  | nil => rfl
  | cons r K' ih =>
    rw [List.map_cons]
    unfold addToRes
    rw [if_neg (fun hc => hmem (List.mem_cons.mpr (Or.inl hc.symm)))]
    rw [ih (fun hc => hmem (List.mem_cons_of_mem r hc))]
    rw [List.cons_append]

theorem addToNs_map {K : List String}
    {g : String → List (String × List BrunoItem)}
    {ns res : String} {it : BrunoItem} (hnd : K.Nodup) (hmem : ns ∈ K) :
    addToNs (K.map (fun n => (n, g n))) ns res it =
      K.map (fun n => (n, if n = ns then addToRes (g n) res it else g n)) := by
  induction K with
  | nil => exact absurd hmem (List.not_mem_nil ns)
  | cons n K' ih =>
    rw [List.map_cons, List.map_cons]
    unfold addToNs
    by_cases hn : n = ns
    · rw [if_pos hn, if_pos hn]
      subst hn
      congr 1
      apply List.map_congr_left
      intro n' hn'
      rw [if_neg (show ¬ n' = n from fun hc => (List.nodup_cons.mp hnd).1 (hc ▸ hn'))]
    · rw [if_neg hn, if_neg hn]
      rw [ih (List.nodup_cons.mp hnd).2 (by
        rcases List.mem_cons.mp hmem with hc | hc
        · exact absurd hc.symm hn
        · exact hc)]

theorem addToNs_map_not_mem {K : List String}
    {g : String → List (String × List BrunoItem)}
    {ns res : String} {it : BrunoItem} (hmem : ns ∉ K) :
    addToNs (K.map (fun n => (n, g n))) ns res it =
      K.map (fun n => (n, g n)) ++ [(ns, [(res, [it])])] := by
  induction K with
  | nil => rfl
  | cons n K' ih =>
    rw [List.map_cons]
    unfold addToNs
    rw [if_neg (fun hc => hmem (List.mem_cons.mpr (Or.inl hc.symm)))]
    rw [ih (fun hc => hmem (List.mem_cons_of_mem n hc))]
    rw [List.cons_append]

theorem matchedOf_snoc_none {l : List BrunoItem} {it : BrunoItem}
    (hu : urlNsRes it.request.url = none) :
    matchedOf (l ++ [it]) = matchedOf l := by
  unfold matchedOf
  rw [List.filterMap_append]
  simp [hu]

theorem matchedOf_snoc_some {l : List BrunoItem} {it : BrunoItem}
    {ns res : String} (hu : urlNsRes it.request.url = some (ns, res)) :
    matchedOf (l ++ [it]) = matchedOf l ++ [(it, ns, res)] := by
  unfold matchedOf
  rw [List.filterMap_append]
  simp [hu]

theorem nsList_snoc {l : List BrunoItem} {it : BrunoItem} {ns res : String}
    (hu : urlNsRes it.request.url = some (ns, res)) :
    nsList (l ++ [it]) = nsList l ++ [ns] := by
  unfold nsList
  rw [matchedOf_snoc_some hu, List.map_append]
  rfl

theorem resList_snoc_eq {l : List BrunoItem} {it : BrunoItem} {ns res : String}
    (hu : urlNsRes it.request.url = some (ns, res)) :
    resList (l ++ [it]) ns = resList l ns ++ [res] := by
  unfold resList
  rw [matchedOf_snoc_some hu, List.filter_append, List.map_append]
  congr 1
  simp

theorem resList_snoc_ne {l : List BrunoItem} {it : BrunoItem} {ns res : String}
    (hu : urlNsRes it.request.url = some (ns, res)) (n : String) (hn : n ≠ ns) :
    resList (l ++ [it]) n = resList l n := by
  unfold resList
  rw [matchedOf_snoc_some hu, List.filter_append, List.map_append]
  simp [Ne.symm hn]

theorem reqList_snoc_eq {l : List BrunoItem} {it : BrunoItem} {ns res : String}
    (hu : urlNsRes it.request.url = some (ns, res)) :
    reqList (l ++ [it]) ns res = reqList l ns res ++ [it] := by
  unfold reqList
  rw [matchedOf_snoc_some hu, List.filter_append, List.map_append]
  congr 1
  simp

theorem reqList_snoc_ne {l : List BrunoItem} {it : BrunoItem} {ns res : String}
    (hu : urlNsRes it.request.url = some (ns, res)) (n r : String)
    (h : ¬(n = ns ∧ r = res)) :
    reqList (l ++ [it]) n r = reqList l n r := by
  have h' : ¬(ns = n ∧ res = r) := fun hc => h ⟨hc.1.symm, hc.2.symm⟩
  unfold reqList
  rw [matchedOf_snoc_some hu, List.filter_append, List.map_append]
  simp [h']

theorem resList_nil_of_not_mem {l : List BrunoItem} {ns : String}
    (h : ns ∉ nsList l) : resList l ns = [] := by
  unfold resList
  rw [List.map_eq_nil_iff, List.filter_eq_nil_iff]
  intro m hm hc
  simp at hc
  exact h (hc ▸ List.mem_map_of_mem (fun m => m.2.1) hm)

theorem reqList_nil_of_not_mem_res {l : List BrunoItem} {ns res : String}
    (h : res ∉ resList l ns) : reqList l ns res = [] := by
  unfold reqList
  rw [List.map_eq_nil_iff, List.filter_eq_nil_iff]
  intro m hm hc
  simp at hc
  obtain ⟨h1, h2⟩ := hc
  refine h ?_
  show res ∈ ((matchedOf l).filter (fun m => m.2.1 = ns)).map (fun m => m.2.2)
  exact h2 ▸ List.mem_map_of_mem _ (List.mem_filter.mpr ⟨hm, by simp [h1]⟩)

theorem reqList_nil_of_not_mem_ns {l : List BrunoItem} {ns res : String}
    (h : ns ∉ nsList l) : reqList l ns res = [] := by
  unfold reqList
  rw [List.map_eq_nil_iff, List.filter_eq_nil_iff]
  intro m hm hc
  simp at hc
  exact h (hc.1 ▸ List.mem_map_of_mem (fun m => m.2.1) hm)

theorem resFolders_snoc_ne {l : List BrunoItem} {it : BrunoItem}
    {ns res : String} (hu : urlNsRes it.request.url = some (ns, res))
    (n : String) (hn : n ≠ ns) :
    resFolders (l ++ [it]) n = resFolders l n := by
  unfold resFolders
  rw [resList_snoc_ne hu n hn]
  have hfun : (fun r => (r, reqList (l ++ [it]) n r)) =
      (fun r => (r, reqList l n r)) :=
    funext fun r => by rw [reqList_snoc_ne hu n r (fun hc => hn hc.1)]
  rw [hfun]

theorem resFolders_snoc_eq {l : List BrunoItem} {it : BrunoItem}
    {ns res : String} (hu : urlNsRes it.request.url = some (ns, res)) :
    addToRes (resFolders l ns) res it = resFolders (l ++ [it]) ns := by
  unfold resFolders
  rw [resList_snoc_eq hu]
  by_cases hres : res ∈ resList l ns
  · rw [firstSeen_snoc_mem hres,
      addToRes_map (firstSeen_nodup _) ((mem_firstSeen _ _).mpr hres)]
    apply List.map_congr_left
    intro r hr
    by_cases hrr : r = res
    · subst hrr
      rw [if_pos rfl, reqList_snoc_eq hu]
    · rw [if_neg hrr, reqList_snoc_ne hu ns r (fun hc => hrr hc.2)]
  · rw [firstSeen_snoc_not_mem hres,
      addToRes_map_not_mem (fun hc => hres ((mem_firstSeen _ _).mp hc)),
      List.map_append]
    congr 1
    · apply List.map_congr_left
      intro r hr
      have hrl : r ∈ resList l ns := (mem_firstSeen _ _).mp hr
      have hrr : r ≠ res := fun hc => hres (hc ▸ hrl)
      rw [reqList_snoc_ne hu ns r (fun hc => hrr hc.2)]
    · show [(res, [it])] = [(res, reqList (l ++ [it]) ns res)]
      rw [reqList_snoc_eq hu, reqList_nil_of_not_mem_res hres]
      rfl

theorem stateSpec_snoc_none {l : List BrunoItem} {it : BrunoItem}
    (hu : urlNsRes it.request.url = none) :
    stateSpec (l ++ [it]) = stateSpec l := by
  unfold stateSpec resFolders nsList resList reqList
  rw [matchedOf_snoc_none hu]

theorem stateSpec_snoc_some {l : List BrunoItem} {it : BrunoItem}
    {ns res : String} (hu : urlNsRes it.request.url = some (ns, res)) :
    addToNs (stateSpec l) ns res it = stateSpec (l ++ [it]) := by
  unfold stateSpec
  rw [nsList_snoc hu]
  by_cases hns : ns ∈ nsList l
  · rw [firstSeen_snoc_mem hns,
      addToNs_map (firstSeen_nodup _) ((mem_firstSeen _ _).mpr hns)]
    apply List.map_congr_left
    intro n hn
    by_cases hnns : n = ns
    · subst hnns
      rw [if_pos rfl, resFolders_snoc_eq hu]
    · rw [if_neg hnns, resFolders_snoc_ne hu n hnns]
  · rw [firstSeen_snoc_not_mem hns,
      addToNs_map_not_mem (fun hc => hns ((mem_firstSeen _ _).mp hc)),
      List.map_append]
    congr 1
    · apply List.map_congr_left
      intro n hn
      have hnl : n ∈ nsList l := (mem_firstSeen _ _).mp hn
      have hnns : n ≠ ns := fun hc => hns (hc ▸ hnl)
      rw [resFolders_snoc_ne hu n hnns]
    · show [(ns, [(res, [it])])] = [(ns, resFolders (l ++ [it]) ns)]
      have hrf : resFolders (l ++ [it]) ns = [(res, [it])] := by
        unfold resFolders
        rw [resList_snoc_eq hu, resList_nil_of_not_mem hns]
        show [(res, reqList (l ++ [it]) ns res)] = [(res, [it])]
        rw [reqList_snoc_eq hu, reqList_nil_of_not_mem_ns hns]
        rfl
      rw [hrf]

/-- C8: the Folder Organizer produces exactly the specification's grouping —
one folder per matched namespace in first-seen order, holding one folder
per resource in first-seen order within that namespace, holding that
resource's matching descriptors in input order; descriptors whose URL does
not match the `name/vN/resource` shape appear nowhere.  The output is thus
determined by the first-seen orders and the per-group input orders alone,
so it is stable under input permutations preserving those orders. -/
theorem organizeIntoFolders_eq_spec (items : List BrunoItem) :
    organizeIntoFolders items = organizeSpec items := by
  have hstate : organizeState items = stateSpec items := by
    induction items using List.reverseRecOn with
    | nil => rfl
    | append_singleton l it ih =>
      have hOS : organizeState (l ++ [it]) = orgStep (organizeState l) it := by
        unfold organizeState
        rw [List.foldl_append]
        rfl
      rw [hOS, ih]
      unfold orgStep
      cases hu : urlNsRes it.request.url with
      | none => exact (stateSpec_snoc_none hu).symm
      | some p =>
        obtain ⟨ns, res⟩ := p
        exact stateSpec_snoc_some hu
  unfold organizeIntoFolders organizeSpec
  rw [hstate]
  unfold stateSpec
  rw [List.map_map]
  apply List.map_congr_left
  intro ns hns
  show renderNs (ns, resFolders items ns) =
    BItem.folder (nsName ns) ((firstSeen (resList items ns)).map
      (fun res => BItem.folder res ((reqList items ns res).map BItem.req)))
  unfold renderNs resFolders
  rw [List.map_map]
  rfl

